import Mathlib

/-!
# browser-pipes / plumber: a verification development

A shallow embedding, in Lean 4, of the plumber daemon of the browser-pipes
repository (Go), together with theorems settling the specified properties.

Conventions used throughout:

* Go maps are embedded as association lists `List (String × String)` (or
  similar).  Where Go *iterates* a map (`for k, v := range m`), the iteration
  order is unspecified and randomized by the Go runtime; such a loop is
  embedded as a function of an explicit entry list, and theorems either hold
  for every order or exhibit a concrete order.
* Calls into the Go standard library that are external to the repository
  (regexp matching, SHA-256, `url.Parse`/`URL.String`, the shell) are embedded
  as explicit function parameters ("oracles"); the repository's own logic is
  embedded concretely.
* Go strings are byte strings.  Where byte-level behaviour matters
  (percent-escaping in the URL canonicalizer) strings are embedded as
  `List Nat` with bytes `< 256`; elsewhere Lean `String` is used.
-/

namespace BrowserPipes

/-! ## Association-list helpers (embedding of Go map read/write) -/

/-- Reading a Go map: first binding of `k`, if any. -/
def lookupKey (l : List (String × String)) (k : String) : Option String :=
  match l with
  | [] => none
  | (k', v) :: rest => if k' = k then some v else lookupKey rest k

/-- Writing a Go map (`m[k] = v`): replace the binding of `k` in place,
or append a new one. -/
def setKey (l : List (String × String)) (k : String) (v : String) :
    List (String × String) :=
  match l with
  | [] => [(k, v)]
  | (k', v') :: rest =>
      if k' = k then (k', v) :: rest else (k', v') :: setKey rest k v

/-- Overlay: apply all bindings of `ps` over `base` (`for k,v := range ps
{ base[k] = v }`). -/
def overlayParams (base ps : List (String × String)) : List (String × String) :=
  ps.foldl (fun acc kv => setKey acc kv.1 kv.2) base

/-! ## Generic list scanning (shared by the string routines)

`strings.ReplaceAll`, `strings.Cut` and friends work on byte strings; we embed
them generically over lists with decidable equality so that the same code
serves `List Char` (resolver) and `List Nat` (URL canonicalizer). -/

/-- `pat.isPrefixOf s`, spelled out. -/
def isPrefixB {α : Type} [DecidableEq α] : List α → List α → Bool
  | [], _ => true
  | _ :: _, [] => false
  | a :: as, b :: bs => if a = b then isPrefixB as bs else false

/-- Does `pat` occur as a contiguous run inside `s`? -/
def hasInfix {α : Type} [DecidableEq α] (s pat : List α) : Bool :=
  isPrefixB pat s ||
    match s with
    | [] => false
    | _ :: rest => hasInfix rest pat

/-- One step of `strings.ReplaceAll`, with explicit fuel (each step consumes at
least one element of `s`, so `s.length` fuel suffices).  Leftmost-first,
non-overlapping, like the Go function. -/
def replaceAllAux {α : Type} [DecidableEq α] :
    Nat → List α → List α → List α → List α
  | 0, s, _, _ => s
  | _ + 1, [], _, _ => []
  | fuel + 1, a :: rest, pat, rep =>
      if isPrefixB pat (a :: rest) then
        rep ++ replaceAllAux fuel ((a :: rest).drop pat.length) pat rep
      else
        a :: replaceAllAux fuel rest pat rep

/-- `strings.ReplaceAll(s, pat, rep)`.  For an empty `pat`, Go inserts `rep`
before every element and at the end; the `plumber` sources only ever call this
with non-empty patterns. -/
def replaceAllL {α : Type} [DecidableEq α] (s pat rep : List α) : List α :=
  if pat = [] then rep ++ s.foldr (fun c acc => c :: rep ++ acc) []
  else replaceAllAux s.length s pat rep

/-- `strings.ReplaceAll` on Lean strings (character = byte for the ASCII
patterns used by the resolver). -/
def goReplaceAll (s pat rep : String) : String :=
  ⟨replaceAllL s.data pat.data rep.data⟩

/-! ## Parameter resolver (src/cmd/plumber/execution_v2.go, `resolveParams`)

The Go function iterates the scope map and, for each entry `k ↦ v`, replaces
`<< parameters.k >>` and then `<<parameters.k>>` by `v`.  The map's iteration
order is unspecified, so the embedding takes the scope as the list of entries
in the order the `range` loop yields them. -/

/-- The two textual placeholder shapes recognized for a parameter name. -/
def patSpace (k : String) : String := "<< parameters." ++ k ++ " >>"

/-- See `patSpace`. -/
def patPlain (k : String) : String := "<<parameters." ++ k ++ ">>"

/-- One entry of the `range params` loop body of `resolveParams`. -/
def applyEntry (acc : String) (kv : String × String) : String :=
  goReplaceAll (goReplaceAll acc (patSpace kv.1) kv.2) (patPlain kv.1) kv.2

/-- `resolveParams(input, params)`: `params` is the scope's entry list in
map-iteration order. -/
def resolveParams (params : List (String × String)) (input : String) : String :=
  params.foldl applyEntry input

/-- "Every parameter referenced in T exists in S": any parameter name whose
placeholder (in either recognized shape) occurs in `T` is a key of `S`. -/
def refExists (S : List (String × String)) (T : String) : Prop :=
  ∀ k : String,
    (hasInfix T.data (patPlain k).data = true ∨
     hasInfix T.data (patSpace k).data = true) →
    k ∈ S.map Prod.fst

/-! Supporting lemmas about the scanners. -/

theorem isPrefixB_length {α : Type} [DecidableEq α] :
    ∀ pat s : List α, isPrefixB pat s = true → pat.length ≤ s.length := by
  intro pat
  induction pat with
  | nil => intro s _; simp
  | cons a as ih =>
      intro s h
      cases s with
      | nil => simp [isPrefixB] at h
      | cons b bs =>
          simp only [isPrefixB] at h
          split at h
          · simpa using ih bs h
          · exact absurd h (by simp)

theorem isPrefixB_eq_of_length {α : Type} [DecidableEq α] :
    ∀ pat s : List α, isPrefixB pat s = true → pat.length = s.length → pat = s := by
  intro pat
  induction pat with
  | nil => intro s _ hl; cases s with
      | nil => rfl
      | cons b bs => simp at hl
  | cons a as ih =>
      intro s h hl
      cases s with
      | nil => simp [isPrefixB] at h
      | cons b bs =>
          simp only [isPrefixB] at h
          split at h
          · next heq => simp only [List.length_cons, Nat.succ.injEq] at hl
                        subst heq
                        rw [ih bs h hl]
          · exact absurd h (by simp)

theorem hasInfix_length {α : Type} [DecidableEq α] :
    ∀ s pat : List α, hasInfix s pat = true → pat.length ≤ s.length := by
  intro s
  induction s with
  | nil => intro pat h
           simp only [hasInfix, Bool.or_false] at h
           exact isPrefixB_length _ _ h
  | cons a rest ih =>
      intro pat h
      simp only [hasInfix, Bool.or_eq_true] at h
      rcases h with h | h
      · exact isPrefixB_length _ _ h
      · exact Nat.le_trans (ih _ h) (by simp)

theorem hasInfix_eq_of_length {α : Type} [DecidableEq α] :
    ∀ s pat : List α, hasInfix s pat = true → pat.length = s.length → pat = s := by
  intro s
  induction s with
  | nil => intro pat h hl
           simp only [hasInfix, Bool.or_false] at h
           exact isPrefixB_eq_of_length _ _ h hl
  | cons a rest ih =>
      intro pat h hl
      simp only [hasInfix, Bool.or_eq_true] at h
      rcases h with h | h
      · exact isPrefixB_eq_of_length _ _ h hl
      · have := hasInfix_length _ _ h
        simp only [List.length_cons] at hl
        omega

theorem hasInfix_nil_pat {α : Type} [DecidableEq α] (s : List α) :
    hasInfix s ([] : List α) = true := by
  cases s <;> simp [hasInfix, isPrefixB]

theorem replaceAllAux_id_of_no_occur {α : Type} [DecidableEq α] :
    ∀ (fuel : Nat) (s pat rep : List α), hasInfix s pat = false →
      replaceAllAux fuel s pat rep = s := by
  intro fuel
  induction fuel with
  | zero => intro s pat rep _; rfl
  | succ n ih =>
      intro s pat rep h
      cases s with
      | nil => rfl
      | cons a rest =>
          simp only [hasInfix, Bool.or_eq_false_iff] at h
          simp only [replaceAllAux, h.1]
          rw [ih rest pat rep h.2]
          simp

theorem goReplaceAll_id_of_no_occur (s pat rep : String)
    (h : hasInfix s.data pat.data = false) : goReplaceAll s pat rep = s := by
  unfold goReplaceAll replaceAllL
  have hne : pat.data ≠ [] := by
    intro he
    rw [he, hasInfix_nil_pat] at h
    exact absurd h (by simp)
  rw [if_neg hne, replaceAllAux_id_of_no_occur _ _ _ _ h]

theorem resolveParams_id_of_no_occur :
    ∀ (S : List (String × String)) (X : String),
      (∀ kv ∈ S, hasInfix X.data (patSpace kv.1).data = false ∧
                 hasInfix X.data (patPlain kv.1).data = false) →
      resolveParams S X = X := by
  intro S
  induction S with
  | nil => intro X _; rfl
  | cons kv rest ih =>
      intro X h
      have hh := h kv (by simp)
      have hstep : applyEntry X kv = X := by
        unfold applyEntry
        rw [goReplaceAll_id_of_no_occur _ _ _ hh.1, goReplaceAll_id_of_no_occur _ _ _ hh.2]
      show resolveParams rest (applyEntry X kv) = X
      rw [hstep]
      exact ih X (fun kv' hkv' => h kv' (by simp [hkv']))

/-- C7, counterexample.  The idempotence claimed for `resolveParams` fails on
the code as written: with the scope `{a ↦ "1", b ↦ "<<parameters.a>>"}`
iterated in the order `a, b` (a possible Go map iteration order) and the
template `"<<parameters.b>>"` — whose only referenced parameter, `b`, exists
in the scope — one resolution yields `"<<parameters.a>>"` and a second
resolution re-expands it to `"1"`. -/
theorem resolveParams_not_idem :
    ¬ (∀ (S : List (String × String)) (T : String), refExists S T →
        resolveParams S (resolveParams S T) = resolveParams S T) := by
  intro h
  have href : refExists [("a", "1"), ("b", "<<parameters.a>>")] "<<parameters.b>>" := by
    intro k hk
    obtain ⟨d⟩ := k
    rcases hk with hk | hk
    · have hd : (patPlain ⟨d⟩).data = "<<parameters.".data ++ d ++ ">>".data := by
        show ("<<parameters." ++ ⟨d⟩ ++ ">>").data = _
        rw [String.data_append, String.data_append]
      have hlen := hasInfix_length _ _ hk
      rw [hd] at hlen
      simp only [List.length_append] at hlen
      cases d with
      | nil =>
          rw [hd] at hk
          exact absurd hk (by decide)
      | cons c d' =>
          cases d' with
          | nil =>
              have heq := hasInfix_eq_of_length _ _ hk (by rw [hd]; simp)
              rw [hd] at heq
              have hT : ("<<parameters.b>>" : String).data =
                  "<<parameters.".data ++ ['b'] ++ ">>".data := by decide
              rw [hT] at heq
              rw [List.append_assoc, List.append_assoc] at heq
              have h1 := List.append_cancel_left heq
              have hc : c = 'b' := by simpa using h1
              subst hc
              decide
          | cons c2 d'' =>
              exfalso
              simp at hlen
              omega
    · have hd : (patSpace ⟨d⟩).data = "<< parameters.".data ++ d ++ " >>".data := by
        show ("<< parameters." ++ ⟨d⟩ ++ " >>").data = _
        rw [String.data_append, String.data_append]
      have hlen := hasInfix_length _ _ hk
      rw [hd] at hlen
      simp only [List.length_append] at hlen
      exfalso
      simp at hlen
      omega
  have h2 := h [("a", "1"), ("b", "<<parameters.a>>")] "<<parameters.b>>" href
  exact absurd h2 (by decide)

/-- C7 (amended): parameter substitution is idempotent whenever no placeholder
of a scope parameter survives in (or is introduced into) the result of the
first resolution: in that case `resolve(resolve(T,S),S) = resolve(T,S)`.
Unconditionally the property fails — a parameter value may itself reintroduce
a placeholder of another scope parameter, which the same map-iteration pass or
a second resolution then expands (see `resolveParams_not_idem`). -/
theorem resolveParams_idem_of_no_surviving_placeholder
    (S : List (String × String)) (T : String)
    (h : ∀ kv ∈ S, hasInfix (resolveParams S T).data (patSpace kv.1).data = false ∧
                   hasInfix (resolveParams S T).data (patPlain kv.1).data = false) :
    resolveParams S (resolveParams S T) = resolveParams S T :=
  resolveParams_id_of_no_occur S _ h

/-- Witness for `resolveParams_idem_of_no_surviving_placeholder` at the scope
`{a ↦ "1"}` and template `"echo <<parameters.a>>"`. -/
theorem resolveParams_idem_witness :
    resolveParams [("a", "1")] (resolveParams [("a", "1")] "echo <<parameters.a>>") =
      resolveParams [("a", "1")] "echo <<parameters.a>>" :=
  resolveParams_idem_of_no_surviving_placeholder [("a", "1")] "echo <<parameters.a>>"
    (by decide)

/-! ## V2 data model (src/cmd/plumber/config_v2.go)

Go maps become association lists; `Workflows` iteration order is passed
explicitly where it matters.  The `Match` field of `WorkflowJob` is named
`matchPat` (`match` is reserved in Lean); `Parameter.Default` is `deflt`. -/

structure Step where
  name : String
  args : String
  params : List (String × String)
deriving DecidableEq

structure Parameter where
  type : String
  deflt : String
deriving DecidableEq

structure Command where
  parameters : List (String × Parameter)
  steps : List Step
deriving DecidableEq

structure Job where
  steps : List Step
deriving DecidableEq

structure WorkflowJob where
  name : String
  matchPat : String
  params : List (String × String)
deriving DecidableEq

structure Workflow where
  jobs : List WorkflowJob
deriving DecidableEq

structure Config where
  version : String
  commands : List (String × Command)
  jobs : List (String × Job)
  workflows : List (String × Workflow)
deriving DecidableEq

def lookupNamed {α : Type} (l : List (String × α)) (k : String) : Option α :=
  match l with
  | [] => none
  | (k', v) :: rest => if k' = k then some v else lookupNamed rest k

def matchesRe (rm : String → String → Bool) (pattern input : String) : Bool :=
  if pattern = "" then false else rm pattern input

def jobRefIsMatch (rm : String → String → Bool) (jr : WorkflowJob) (url : String) : Bool :=
  if jr.matchPat = "" then true else matchesRe rm jr.matchPat url

abbrev RunJob := String → List (String × String) → Except String Unit

def execRefs (rm : String → String → Bool) (runJob : RunJob)
    (jobs : List (String × Job)) (url : String) :
    List WorkflowJob → Bool → Bool × List String × Option String
  | [], matched => (matched, [], none)
  | jr :: rest, matched =>
    if jobRefIsMatch rm jr url then
      match lookupNamed jobs jr.name with
      | none => execRefs rm runJob jobs url rest matched
      | some _ =>
        match runJob jr.name jr.params with
        | .error e => (matched, [jr.name], some e)
        | .ok _ =>
          let r := execRefs rm runJob jobs url rest true
          (r.1, jr.name :: r.2.1, r.2.2)
    else execRefs rm runJob jobs url rest matched

def execWorkflows (rm : String → String → Bool) (runJob : RunJob)
    (jobs : List (String × Job)) (url : String) :
    List (String × Workflow) → Bool → Bool × List String × Option String
  | [], matched => (matched, [], none)
  | (_, wf) :: rest, matched =>
    let r := execRefs rm runJob jobs url wf.jobs matched
    match r.2.2 with
    | some e => (r.1, r.2.1, some e)
    | none =>
      let r2 := execWorkflows rm runJob jobs url rest r.1
      (r2.1, r.2.1 ++ r2.2.1, r2.2.2)

def ExecuteWorkflowV2 (rm : String → String → Bool) (runJob : RunJob)
    (cfg : Config) (order : List (String × Workflow)) (url : String) :
    List String × Except String Unit :=
  let r := execWorkflows rm runJob cfg.jobs url order false
  match r.2.2 with
  | some e => (r.2.1, Except.error e)
  | none =>
    if r.1 = false then
      (r.2.1, Except.error ("no matching jobs found for url: " ++ url))
    else
      (r.2.1, Except.ok ())

def matchingRefs (rm : String → String → Bool) (url : String)
    (order : List (String × Workflow)) : List WorkflowJob :=
  (order.map (fun p => p.2.jobs.filter (fun jr => jobRefIsMatch rm jr url))).flatten

def okRef (runJob : RunJob) (jr : WorkflowJob) : Bool :=
  match runJob jr.name jr.params with
  | .ok _ => true
  | .error _ => false

def oks (runJob : RunJob) (l : List WorkflowJob) : List WorkflowJob :=
  l.takeWhile (okRef runJob)

def firstFailed (runJob : RunJob) (l : List WorkflowJob) : Option WorkflowJob :=
  (l.dropWhile (okRef runJob)).head?

def traceOf (runJob : RunJob) (l : List WorkflowJob) : List String :=
  (oks runJob l).map (fun jr => jr.name) ++
    (match firstFailed runJob l with
     | some jr => [jr.name]
     | none => [])

def errOf (runJob : RunJob) (l : List WorkflowJob) : Option String :=
  match firstFailed runJob l with
  | some jr =>
    (match runJob jr.name jr.params with
     | .error e => some e
     | .ok _ => none)
  | none => none

theorem takeWhile_append_all {α : Type} (p : α → Bool) :
    ∀ A B : List α, (∀ a ∈ A, p a = true) →
      (A ++ B).takeWhile p = A ++ B.takeWhile p := by
  intro A B h
  induction A with
  | nil => rfl
  | cons a A' ih =>
      have ha := h a (by simp)
      simp only [List.cons_append, List.takeWhile_cons, ha, if_true]
      rw [ih (fun x hx => h x (by simp [hx]))]

theorem dropWhile_append_all {α : Type} (p : α → Bool) :
    ∀ A B : List α, (∀ a ∈ A, p a = true) →
      (A ++ B).dropWhile p = B.dropWhile p := by
  intro A B h
  induction A with
  | nil => rfl
  | cons a A' ih =>
      have ha := h a (by simp)
      simp only [List.cons_append, List.dropWhile_cons, ha, if_true]
      exact ih (fun x hx => h x (by simp [hx]))

theorem takeWhile_append_stop {α : Type} (p : α → Bool) :
    ∀ A B : List α, A.dropWhile p ≠ [] →
      (A ++ B).takeWhile p = A.takeWhile p := by
  intro A B h
  induction A with
  | nil => simp [List.dropWhile] at h
  | cons a A' ih =>
      by_cases ha : p a = true
      · simp only [List.dropWhile_cons, ha, if_true] at h
        simp only [List.cons_append, List.takeWhile_cons, ha, if_true]
        rw [ih h]
      · have ha' : p a = false := by simpa using ha
        simp only [List.cons_append, List.takeWhile_cons, ha']
        simp

theorem dropWhile_append_stop {α : Type} (p : α → Bool) :
    ∀ A B : List α, A.dropWhile p ≠ [] →
      (A ++ B).dropWhile p = A.dropWhile p ++ B := by
  intro A B h
  induction A with
  | nil => simp [List.dropWhile] at h
  | cons a A' ih =>
      by_cases ha : p a = true
      · simp only [List.dropWhile_cons, ha, if_true] at h
        simp only [List.cons_append, List.dropWhile_cons, ha, if_true]
        exact ih h
      · have ha' : p a = false := by simpa using ha
        simp only [List.cons_append, List.dropWhile_cons, ha']
        simp

theorem dropWhile_nil_of_all {α : Type} (p : α → Bool) :
    ∀ A : List α, (∀ a ∈ A, p a = true) → A.dropWhile p = [] := by
  intro A h
  induction A with
  | nil => rfl
  | cons a A' ih =>
      have ha := h a (by simp)
      simp only [List.dropWhile_cons, ha, if_true]
      exact ih (fun x hx => h x (by simp [hx]))

theorem takeWhile_self_of_all {α : Type} (p : α → Bool) :
    ∀ A : List α, (∀ a ∈ A, p a = true) → A.takeWhile p = A := by
  intro A h
  induction A with
  | nil => rfl
  | cons a A' ih =>
      have ha := h a (by simp)
      simp only [List.takeWhile_cons, ha, if_true]
      rw [ih (fun x hx => h x (by simp [hx]))]

theorem head?_append_left {α : Type} :
    ∀ A B : List α, A ≠ [] → (A ++ B).head? = A.head? := by
  intro A B h
  cases A with
  | nil => exact absurd rfl h
  | cons a A' => rfl

theorem head?_dropWhile_false {α : Type} (p : α → Bool) :
    ∀ (l : List α) (a : α), (l.dropWhile p).head? = some a → p a = false := by
  intro l
  induction l with
  | nil => intro a h; simp [List.dropWhile] at h
  | cons x l' ih =>
      intro a h
      by_cases hx : p x = true
      · simp only [List.dropWhile_cons, hx, if_true] at h
        exact ih a h
      · have hx' : p x = false := by simpa using hx
        simp only [List.dropWhile_cons, hx'] at h
        simp at h
        exact h ▸ hx'

theorem all_of_dropWhile_nil {α : Type} (p : α → Bool) :
    ∀ l : List α, l.dropWhile p = [] → ∀ a ∈ l, p a = true := by
  intro l
  induction l with
  | nil => intro _ a ha; simp at ha
  | cons x l' ih =>
      intro h a ha
      by_cases hx : p x = true
      · simp only [List.dropWhile_cons, hx, if_true] at h
        rcases List.mem_cons.mp ha with rfl | ha'
        · exact hx
        · exact ih h a ha'
      · have hx' : p x = false := by simpa using hx
        simp only [List.dropWhile_cons, hx'] at h
        simp at h

theorem execRefs_char (rm : String → String → Bool) (runJob : RunJob)
    (jobs : List (String × Job)) (url : String) :
    ∀ (refs : List WorkflowJob) (m : Bool),
      (∀ jr ∈ refs, jobRefIsMatch rm jr url = true →
        (lookupNamed jobs jr.name).isSome = true) →
      execRefs rm runJob jobs url refs m =
        (m || !(oks runJob (refs.filter (fun jr => jobRefIsMatch rm jr url))).isEmpty,
         traceOf runJob (refs.filter (fun jr => jobRefIsMatch rm jr url)),
         errOf runJob (refs.filter (fun jr => jobRefIsMatch rm jr url))) := by
  intro refs
  induction refs with
  | nil =>
      intro m _
      simp [execRefs, oks, traceOf, errOf, firstFailed, List.dropWhile]
  | cons jr rest ih =>
      intro m h
      by_cases hm : jobRefIsMatch rm jr url = true
      · have hsome := h jr (by simp) hm
        obtain ⟨j, hj⟩ := Option.isSome_iff_exists.mp hsome
        simp only [List.filter_cons, hm, if_true]
        cases hrun : runJob jr.name jr.params with
        | error e =>
            have hok : okRef runJob jr = false := by simp [okRef, hrun]
            simp only [execRefs, hm, if_true, hj, hrun]
            simp [oks, traceOf, errOf, firstFailed, List.takeWhile_cons,
                  List.dropWhile_cons, hok, hrun]
        | ok u =>
            have hok : okRef runJob jr = true := by simp [okRef, hrun]
            simp only [execRefs, hm, if_true, hj, hrun]
            rw [ih true (fun x hx => h x (by simp [hx]))]
            simp [oks, traceOf, errOf, firstFailed, List.takeWhile_cons,
                  List.dropWhile_cons, hok]
      · have hm' : jobRefIsMatch rm jr url = false := by simpa using hm
        simp only [List.filter_cons, hm', Bool.false_eq_true, if_false]
        simp only [execRefs, hm', Bool.false_eq_true, if_false]
        exact ih m (fun x hx => h x (by simp [hx]))

theorem isEmpty_append_list {α : Type} (A B : List α) :
    (A ++ B).isEmpty = (A.isEmpty && B.isEmpty) := by
  cases A <;> simp

theorem errOf_eq_none_iff (runJob : RunJob) (l : List WorkflowJob) :
    errOf runJob l = none ↔ firstFailed runJob l = none := by
  constructor
  · intro h
    unfold errOf at h
    cases hf : firstFailed runJob l with
    | none => rfl
    | some jr =>
        rw [hf] at h
        have hok := head?_dropWhile_false (okRef runJob) l jr hf
        unfold okRef at hok
        cases hrun : runJob jr.name jr.params with
        | ok u => rw [hrun] at hok; simp at hok
        | error e => simp [hrun] at h
  · intro h
    unfold errOf
    rw [h]

theorem execWorkflows_char (rm : String → String → Bool) (runJob : RunJob)
    (jobs : List (String × Job)) (url : String) :
    ∀ (order : List (String × Workflow)) (m : Bool),
      (∀ p ∈ order, ∀ jr ∈ p.2.jobs, jobRefIsMatch rm jr url = true →
        (lookupNamed jobs jr.name).isSome = true) →
      execWorkflows rm runJob jobs url order m =
        (m || !(oks runJob (matchingRefs rm url order)).isEmpty,
         traceOf runJob (matchingRefs rm url order),
         errOf runJob (matchingRefs rm url order)) := by
  intro order
  induction order with
  | nil =>
      intro m _
      simp [execWorkflows, matchingRefs, oks, traceOf, errOf, firstFailed,
            List.dropWhile]
  | cons p rest ih =>
      intro m h
      obtain ⟨nm, wf⟩ := p
      have hF := execRefs_char rm runJob jobs url wf.jobs m
        (fun jr hjr => h (nm, wf) (by simp) jr hjr)
      have hM : matchingRefs rm url ((nm, wf) :: rest) =
          wf.jobs.filter (fun jr => jobRefIsMatch rm jr url) ++ matchingRefs rm url rest := by
        simp [matchingRefs]
      set F := wf.jobs.filter (fun jr => jobRefIsMatch rm jr url) with hFdef
      set M' := matchingRefs rm url rest with hM'def
      rw [hM]
      show (let r := execRefs rm runJob jobs url wf.jobs m
            match r.2.2 with
            | some e => (r.1, r.2.1, some e)
            | none =>
              let r2 := execWorkflows rm runJob jobs url rest r.1
              (r2.1, r.2.1 ++ r2.2.1, r2.2.2)) = _
      rw [hF]
      cases he : errOf runJob F with
      | some e =>
          simp only []
          have hne : F.dropWhile (okRef runJob) ≠ [] := by
            intro hnil
            have : firstFailed runJob F = none := by
              unfold firstFailed; rw [hnil]; rfl
            rw [(errOf_eq_none_iff runJob F).mpr this] at he
            exact absurd he (by simp)
          have hoks : oks runJob (F ++ M') = oks runJob F := by
            unfold oks
            exact takeWhile_append_stop _ F M' hne
          have hff : firstFailed runJob (F ++ M') = firstFailed runJob F := by
            unfold firstFailed
            rw [dropWhile_append_stop _ F M' hne]
            exact head?_append_left _ _ hne
          have htr : traceOf runJob (F ++ M') = traceOf runJob F := by
            unfold traceOf
            rw [hoks, hff]
          have herr : errOf runJob (F ++ M') = errOf runJob F := by
            unfold errOf
            rw [hff]
          rw [hoks, htr, herr, he]
      | none =>
          simp only []
          have hall : ∀ a ∈ F, okRef runJob a = true := by
            have hnil : F.dropWhile (okRef runJob) = [] := by
              have := (errOf_eq_none_iff runJob F).mp he
              unfold firstFailed at this
              exact List.head?_eq_none_iff.mp this
            exact all_of_dropWhile_nil _ F hnil
          have hoksF : oks runJob F = F := takeWhile_self_of_all _ F hall
          have hoks : oks runJob (F ++ M') = F ++ oks runJob M' := by
            unfold oks
            exact takeWhile_append_all _ F M' hall
          have hffF : firstFailed runJob F = none := (errOf_eq_none_iff runJob F).mp he
          have hff : firstFailed runJob (F ++ M') = firstFailed runJob M' := by
            unfold firstFailed
            rw [dropWhile_append_all _ F M' hall]
          have htr : traceOf runJob (F ++ M') =
              F.map (fun jr => jr.name) ++ traceOf runJob M' := by
            unfold traceOf
            rw [hoks, hff, List.map_append]
            simp [List.append_assoc]
          have herr : errOf runJob (F ++ M') = errOf runJob M' := by
            unfold errOf
            rw [hff]
          rw [ih (m || !(oks runJob F).isEmpty)
            (fun q hq => h q (by simp [hq]))]
          rw [hoks, htr, herr]
          have htrF : traceOf runJob F = F.map (fun jr => jr.name) := by
            unfold traceOf
            rw [hoksF, hffF]
            simp
          rw [htrF, hoksF]
          simp [isEmpty_append_list, Bool.or_assoc]

/-- C1 (amended).  `ExecuteWorkflowV2` executes exactly the matching job
references — a reference matches iff its `match` field is empty (match-all) or
the regex finds a match in the URL — visiting workflows in the order the Go
`range` loop yields the `Workflows` map (`order`, some permutation of the
configured workflows, not necessarily configuration order) and job references
in order within each workflow.  The first failing job aborts the message, so
remaining matches are not attempted, and if no reference matches the result is
an error whose message contains "no matching jobs found for url".
`runJob` abstracts `executeJob`; the hypothesis says every matching reference
names a defined job (guaranteed by validation). -/
theorem ExecuteWorkflowV2_match_policy
    (rm : String → String → Bool) (runJob : RunJob) (cfg : Config)
    (order : List (String × Workflow)) (url : String)
    (horder : order.Perm cfg.workflows)
    (hdef : ∀ p ∈ cfg.workflows, ∀ jr ∈ p.2.jobs, jobRefIsMatch rm jr url = true →
      (lookupNamed cfg.jobs jr.name).isSome = true) :
    ((∀ jr ∈ matchingRefs rm url order, runJob jr.name jr.params = Except.ok ()) →
      matchingRefs rm url order ≠ [] →
      ExecuteWorkflowV2 rm runJob cfg order url =
        ((matchingRefs rm url order).map (fun jr => jr.name), Except.ok ())) ∧
    (∀ M₁ jr M₂ e, matchingRefs rm url order = M₁ ++ jr :: M₂ →
      (∀ x ∈ M₁, runJob x.name x.params = Except.ok ()) →
      runJob jr.name jr.params = Except.error e →
      ExecuteWorkflowV2 rm runJob cfg order url =
        (M₁.map (fun x => x.name) ++ [jr.name], Except.error e)) ∧
    (matchingRefs rm url order = [] →
      ExecuteWorkflowV2 rm runJob cfg order url =
        ([], Except.error ("no matching jobs found for url: " ++ url))) := by
  have hdefO : ∀ p ∈ order, ∀ jr ∈ p.2.jobs, jobRefIsMatch rm jr url = true →
      (lookupNamed cfg.jobs jr.name).isSome = true :=
    fun p hp => hdef p (horder.mem_iff.mp hp)
  have hchar := execWorkflows_char rm runJob cfg.jobs url order false hdefO
  refine ⟨?_, ?_, ?_⟩
  · intro hall hne
    have hok : ∀ a ∈ matchingRefs rm url order, okRef runJob a = true := by
      intro a ha
      unfold okRef
      rw [hall a ha]
    have hoksM : oks runJob (matchingRefs rm url order) = matchingRefs rm url order :=
      takeWhile_self_of_all _ _ hok
    have hffM : firstFailed runJob (matchingRefs rm url order) = none := by
      unfold firstFailed
      rw [dropWhile_nil_of_all _ _ hok]
      rfl
    have htrM : traceOf runJob (matchingRefs rm url order) =
        (matchingRefs rm url order).map (fun jr => jr.name) := by
      unfold traceOf
      rw [hoksM, hffM]
      simp
    have herrM : errOf runJob (matchingRefs rm url order) = none := by
      unfold errOf
      rw [hffM]
    have hmempty : (matchingRefs rm url order).isEmpty = false := by
      cases hM : matchingRefs rm url order with
      | nil => exact absurd hM hne
      | cons x xs => rfl
    unfold ExecuteWorkflowV2
    rw [hchar]
    simp only [herrM, hoksM, htrM, hmempty]
    rfl
  · intro M₁ jr M₂ e hsplit hok₁ herr
    have hok : ∀ a ∈ M₁, okRef runJob a = true := by
      intro a ha
      unfold okRef
      rw [hok₁ a ha]
    have hjrok : okRef runJob jr = false := by
      unfold okRef
      rw [herr]
    have hoksM : oks runJob (matchingRefs rm url order) = M₁ := by
      unfold oks
      rw [hsplit, takeWhile_append_all _ M₁ _ hok]
      simp [List.takeWhile_cons, hjrok]
    have hffM : firstFailed runJob (matchingRefs rm url order) = some jr := by
      unfold firstFailed
      rw [hsplit, dropWhile_append_all _ M₁ _ hok]
      simp [List.dropWhile_cons, hjrok]
    have htrM : traceOf runJob (matchingRefs rm url order) =
        M₁.map (fun x => x.name) ++ [jr.name] := by
      unfold traceOf
      rw [hoksM, hffM]
    have herrM : errOf runJob (matchingRefs rm url order) = some e := by
      unfold errOf
      rw [hffM]
      simp [herr]
    unfold ExecuteWorkflowV2
    rw [hchar]
    simp only [herrM, htrM]
  · intro hM
    unfold ExecuteWorkflowV2
    rw [hchar, hM]
    simp [oks, traceOf, errOf, firstFailed, List.dropWhile]

theorem execRefs_all_missing (rm : String → String → Bool) (runJob : RunJob)
    (jobs : List (String × Job)) (url : String) :
    ∀ (refs : List WorkflowJob) (m : Bool),
      (∀ jr ∈ refs, jobRefIsMatch rm jr url = true → lookupNamed jobs jr.name = none) →
      execRefs rm runJob jobs url refs m = (m, [], none) := by
  intro refs
  induction refs with
  | nil => intro m _; rfl
  | cons jr rest ih =>
      intro m h
      by_cases hm : jobRefIsMatch rm jr url = true
      · have hnone := h jr (by simp) hm
        simp only [execRefs, hm, if_true, hnone]
        exact ih m (fun x hx => h x (by simp [hx]))
      · have hm' : jobRefIsMatch rm jr url = false := by simpa using hm
        simp only [execRefs, hm', Bool.false_eq_true, if_false]
        exact ih m (fun x hx => h x (by simp [hx]))

theorem execWorkflows_all_missing (rm : String → String → Bool) (runJob : RunJob)
    (jobs : List (String × Job)) (url : String) :
    ∀ (order : List (String × Workflow)) (m : Bool),
      (∀ p ∈ order, ∀ jr ∈ p.2.jobs, jobRefIsMatch rm jr url = true →
        lookupNamed jobs jr.name = none) →
      execWorkflows rm runJob jobs url order m = (m, [], none) := by
  intro order
  induction order with
  | nil => intro m _; rfl
  | cons p rest ih =>
      intro m h
      obtain ⟨nm, wf⟩ := p
      have hr := execRefs_all_missing rm runJob jobs url wf.jobs m
        (fun jr hjr => h (nm, wf) (by simp) jr hjr)
      show (let r := execRefs rm runJob jobs url wf.jobs m
            match r.2.2 with
            | some e => (r.1, r.2.1, some e)
            | none =>
              let r2 := execWorkflows rm runJob jobs url rest r.1
              (r2.1, r.2.1 ++ r2.2.1, r2.2.2)) = (m, [], none)
      rw [hr]
      simp only []
      rw [ih m (fun q hq => h q (by simp [hq]))]
      rfl

/-- C10.  A workflow job reference that matches the URL but names a job
absent from `cfg.Jobs` is skipped (`continue`) without failing the message and
does not set the `matched` flag; consequently, when every matching reference
names a missing job, `ExecuteWorkflowV2` executes nothing and returns the
"no matching jobs found" error even though references matched
(`matchingRefs ≠ []`). -/
theorem ExecuteWorkflowV2_missing_job_refs
    (rm : String → String → Bool) (runJob : RunJob) (cfg : Config)
    (order : List (String × Workflow)) (url : String)
    (hmiss : ∀ p ∈ order, ∀ jr ∈ p.2.jobs, jobRefIsMatch rm jr url = true →
      lookupNamed cfg.jobs jr.name = none)
    (_hmatch : matchingRefs rm url order ≠ []) :
    ExecuteWorkflowV2 rm runJob cfg order url =
      ([], Except.error ("no matching jobs found for url: " ++ url)) := by
  unfold ExecuteWorkflowV2
  rw [execWorkflows_all_missing rm runJob cfg.jobs url order false hmiss]
  rfl

/-- Witness for `ExecuteWorkflowV2_missing_job_refs`: one match-all reference
to the undefined job "ghost". -/
theorem ExecuteWorkflowV2_missing_job_refs_witness :
    ExecuteWorkflowV2 (fun _ _ => true) (fun _ _ => Except.ok ())
      ⟨"2", [], [], [("main", ⟨[⟨"ghost", "", []⟩]⟩)]⟩
      [("main", ⟨[⟨"ghost", "", []⟩]⟩)] "https://example.com" =
      ([], Except.error ("no matching jobs found for url: " ++ "https://example.com")) :=
  ExecuteWorkflowV2_missing_job_refs (fun _ _ => true) (fun _ _ => Except.ok ())
    ⟨"2", [], [], [("main", ⟨[⟨"ghost", "", []⟩]⟩)]⟩
    [("main", ⟨[⟨"ghost", "", []⟩]⟩)] "https://example.com"
    (by decide) (by decide)

/-- Witness for `ExecuteWorkflowV2_match_policy`: a single always-matching
job reference on a defined job executes it and succeeds. -/
theorem ExecuteWorkflowV2_match_policy_witness :
    ExecuteWorkflowV2 (fun _ _ => true) (fun _ _ => Except.ok ())
      ⟨"2", [], [("j", ⟨[]⟩)], [("main", ⟨[⟨"j", ".*", []⟩]⟩)]⟩
      [("main", ⟨[⟨"j", ".*", []⟩]⟩)] "https://example.com" =
      (["j"], Except.ok ()) :=
  (ExecuteWorkflowV2_match_policy (fun _ _ => true) (fun _ _ => Except.ok ())
      ⟨"2", [], [("j", ⟨[]⟩)], [("main", ⟨[⟨"j", ".*", []⟩]⟩)]⟩
      [("main", ⟨[⟨"j", ".*", []⟩]⟩)] "https://example.com"
      (List.Perm.refl _)
      (by decide)).1 (by intro jr _; rfl) (by decide)

/-- C1, counterexample to "in configuration order".  `cfg.Workflows` is a Go
map, and `ExecuteWorkflowV2` iterates it with `range`, whose order is
unspecified (randomized per iteration).  For a config whose workflows in
configuration order are `a` then `b` (each with one match-all reference), the
iteration order `b, a` — a valid permutation of the map's entries — executes
`jb` before `ja`, which differs from the configuration-order sequence
`ja, jb`. -/
theorem ExecuteWorkflowV2_order_counterexample :
    List.Perm
      [("b", (⟨[⟨"jb", "", []⟩]⟩ : Workflow)), ("a", ⟨[⟨"ja", "", []⟩]⟩)]
      (Config.workflows ⟨"2", [], [("ja", ⟨[]⟩), ("jb", ⟨[]⟩)],
        [("a", ⟨[⟨"ja", "", []⟩]⟩), ("b", ⟨[⟨"jb", "", []⟩]⟩)]⟩) ∧
    (ExecuteWorkflowV2 (fun _ _ => true) (fun _ _ => Except.ok ())
        ⟨"2", [], [("ja", ⟨[]⟩), ("jb", ⟨[]⟩)],
         [("a", ⟨[⟨"ja", "", []⟩]⟩), ("b", ⟨[⟨"jb", "", []⟩]⟩)]⟩
        [("b", ⟨[⟨"jb", "", []⟩]⟩), ("a", ⟨[⟨"ja", "", []⟩]⟩)] "u").1 ≠
      (matchingRefs (fun _ _ => true) "u"
        (Config.workflows ⟨"2", [], [("ja", ⟨[]⟩), ("jb", ⟨[]⟩)],
          [("a", ⟨[⟨"ja", "", []⟩]⟩), ("b", ⟨[⟨"jb", "", []⟩]⟩)]⟩)).map
        (fun jr => jr.name) := by
  constructor
  · decide
  · decide


/-! ## Config loading and validation

`loadConfig` (the V2 main file) checks, after YAML decoding, only that
`version` is non-empty; `Config.Validate` (src/cmd/plumber/config_v2.go)
likewise checks only non-emptiness before cross-referencing workflows and
jobs.  `regexOk` abstracts `regexp.Compile` succeeding; map iteration order is
the association lists' order (it only affects which error surfaces first). -/

/-- The version check performed by `loadConfig` after decoding. -/
def loadConfigVersionCheck (version : String) : Except String Unit :=
  if version = "" then Except.error "invalid config: missing 'version' (must be '2')"
  else Except.ok ()

/-- The inner loop of `Config.Validate` step 1: one workflow's job refs. -/
def validateJobRefs (regexOk : String → Bool) (jobs : List (String × Job))
    (wfName : String) : List WorkflowJob → Except String Unit
  | [] => Except.ok ()
  | jr :: rest =>
    if (lookupNamed jobs jr.name).isSome then
      if jr.matchPat ≠ "" ∧ regexOk jr.matchPat = false then
        Except.error ("workflow '" ++ wfName ++ "' job '" ++ jr.name ++
          "' has invalid match regex '" ++ jr.matchPat ++ "'")
      else validateJobRefs regexOk jobs wfName rest
    else
      Except.error ("workflow '" ++ wfName ++ "' references undefined job '" ++
        jr.name ++ "'")

/-- `Config.Validate` step 1: every workflow job ref names a defined job and
carries a compilable regex. -/
def validateWorkflows (regexOk : String → Bool) (jobs : List (String × Job)) :
    List (String × Workflow) → Except String Unit
  | [] => Except.ok ()
  | (wfName, wf) :: rest =>
    match validateJobRefs regexOk jobs wfName wf.jobs with
    | Except.error e => Except.error e
    | Except.ok _ => validateWorkflows regexOk jobs rest

/-- `Config.Validate` step 2, inner loop: bindings passed to a command must be
declared parameters of that command. -/
def validateStepParams (cmdName jobName : String) (i : Nat) (cmd : Command) :
    List (String × String) → Except String Unit
  | [] => Except.ok ()
  | (pName, _) :: rest =>
    if (lookupNamed cmd.parameters pName).isSome then
      validateStepParams cmdName jobName i cmd rest
    else
      Except.error ("job '" ++ jobName ++ "' step " ++ toString (i + 1) ++
        " passes unknown parameter '" ++ pName ++ "' to command '" ++ cmdName ++ "'")

/-- `Config.Validate` step 2: every non-`run` step names a defined command. -/
def validateSteps (commands : List (String × Command)) (jobName : String) :
    Nat → List Step → Except String Unit
  | _, [] => Except.ok ()
  | i, step :: rest =>
    if step.name = "run" then validateSteps commands jobName (i + 1) rest
    else
      match lookupNamed commands step.name with
      | none =>
          Except.error ("job '" ++ jobName ++ "' step " ++ toString (i + 1) ++
            " references undefined command '" ++ step.name ++ "'")
      | some cmd =>
          match validateStepParams step.name jobName i cmd step.params with
          | Except.error e => Except.error e
          | Except.ok _ => validateSteps commands jobName (i + 1) rest

/-- `Config.Validate` step 2, outer loop over jobs. -/
def validateJobs (commands : List (String × Command)) :
    List (String × Job) → Except String Unit
  | [] => Except.ok ()
  | (jobName, job) :: rest =>
    match validateSteps commands jobName 0 job.steps with
    | Except.error e => Except.error e
    | Except.ok _ => validateJobs commands rest

/-- `Config.Validate`. -/
def ConfigValidate (regexOk : String → Bool) (c : Config) : Except String Unit :=
  if c.version = "" then Except.error "version is missing"
  else
    match validateWorkflows regexOk c.jobs c.workflows with
    | Except.error e => Except.error e
    | Except.ok _ => validateJobs c.commands c.jobs

/-- C6, code bug.  The claim (and the code's own error message "must be '2'",
its `jsonschema:"enum=2"` tag, and the spec) require `version = "2"`, but both
`loadConfig` and `Config.Validate` only test for emptiness: a config with
`version: "3"` passes both checks.  The remainder of the claim holds: a config
containing only `jobs: {}` decodes with `version = ""` and fails with a
message containing "missing 'version'". -/
theorem version_any_nonempty_accepted :
    loadConfigVersionCheck "3" = Except.ok () ∧
    ConfigValidate (fun _ => true) ⟨"3", [], [], []⟩ = Except.ok () ∧
    loadConfigVersionCheck "" =
      Except.error "invalid config: missing 'version' (must be '2')" ∧
    hasInfix "invalid config: missing 'version' (must be '2')".data
      "missing 'version'".data = true ∧
    ConfigValidate (fun _ => true) ⟨"", [], [], []⟩ =
      Except.error "version is missing" := by
  refine ⟨rfl, rfl, rfl, by decide, rfl⟩

/-! ## Message dispatcher (the V2 main file: `startLoop`, `handleMessage`,
`sendResponse`)

`decode` abstracts `json.Unmarshal` into an `Envelope` (`none` = decode error:
logged, frame skipped, loop continues); `clean` is the canonicalizer; `exec`
abstracts `ExecuteWorkflowV2`.  The input list holds the payloads of the
successfully framed inbound messages (a transport error terminates the loop
before any decode).  `sendResponse` writes exactly one length-prefixed frame
per call; the loop's output list is the sequence of emitted responses in
order. -/

structure Envelope where
  id : String
  origin : String
  url : String
  target : String
  timestamp : Int
deriving DecidableEq

structure Response where
  status : String
  message : String
deriving DecidableEq

def handleMessage (clean : String → String) (exec : String → Except String Unit)
    (env : Envelope) : Response :=
  match exec (clean env.url) with
  | Except.error e => ⟨"error", "Workflow failed: " ++ e⟩
  | Except.ok _ => ⟨"success", "Workflow executed"⟩

def startLoop (decode : String → Option Envelope) (clean : String → String)
    (exec : String → Except String Unit) : List String → List Response
  | [] => []
  | f :: rest =>
    match decode f with
    | none => startLoop decode clean exec rest
    | some env => handleMessage clean exec env :: startLoop decode clean exec rest

/-- C9.  For every inbound frame whose payload decodes as envelope JSON, the
dispatcher emits exactly one response — in frame order, each response produced
before the next frame is processed (the loop is sequential: the output is
exactly the per-frame responses concatenated), with status "success" and a
non-empty message when the workflow succeeds and status "error" and a
non-empty message on any per-message failure; undecodable frames produce no
response. -/
theorem startLoop_one_response_per_decoded
    (decode : String → Option Envelope) (clean : String → String)
    (exec : String → Except String Unit) (frames : List String) :
    startLoop decode clean exec frames =
      (frames.filterMap decode).map (handleMessage clean exec) ∧
    (startLoop decode clean exec frames).length =
      (frames.filterMap decode).length ∧
    ∀ env : Envelope,
      (handleMessage clean exec env).status =
        (match exec (clean env.url) with
         | Except.ok _ => "success"
         | Except.error _ => "error") ∧
      0 < (handleMessage clean exec env).message.length := by
  have hmain : ∀ fs : List String, startLoop decode clean exec fs =
      (fs.filterMap decode).map (handleMessage clean exec) := by
    intro fs
    induction fs with
    | nil => rfl
    | cons f rest ih =>
        cases hd : decode f with
        | none => simp [startLoop, List.filterMap_cons, hd, ih]
        | some env => simp [startLoop, List.filterMap_cons, hd, ih]
  refine ⟨hmain frames, by rw [hmain frames]; simp, ?_⟩
  intro env
  cases he : exec (clean env.url) with
  | ok u =>
      constructor
      · simp [handleMessage, he]
      · simp only [handleMessage, he]
        decide
  | error e =>
      constructor
      · simp [handleMessage, he]
      · simp only [handleMessage, he]
        rw [String.length_append]
        have : 0 < "Workflow failed: ".length := by decide
        omega

/-! ## `hashURL` (src/cmd/plumber/utils.go) and system-injected parameters

`hashURL` is `fmt.Sprintf("%x", sha256.Sum(uri))[:8]`: the SHA-256 digest
printed as lowercase hex, truncated to its first 8 characters.  SHA-256 itself
is the Go standard library, abstracted as `sha256 : String → List Nat`
returning the 32 digest bytes. -/

/-- One lowercase hex digit, as printed by `%x`. -/
def hexDigitChar (d : Nat) : Char :=
  if d < 10 then Char.ofNat (48 + d) else Char.ofNat (87 + d)

/-- `%x` of one byte: two lowercase hex digits. -/
def byteHexChars (b : Nat) : List Char :=
  [hexDigitChar (b / 16), hexDigitChar (b % 16)]

/-- `fmt.Sprintf("%x", bytes)`. -/
def hexLowerChars (bytes : List Nat) : List Char :=
  (bytes.map byteHexChars).flatten

/-- `hashURL(uri)`: first 8 characters of the lowercase hex SHA-256. -/
def hashURL (sha256 : String → List Nat) (uri : String) : String :=
  ⟨(hexLowerChars (sha256 uri)).take 8⟩

/-- Modelled from the spec: `injectSystemParams` of the current execution
engine (called by `executeJob`/`executeCommand` and pinned by
`TestInjectSystemParams` in src/cmd/plumber/execution_v2_test.go, but the
engine source itself is not under src/).  §4.7: before any job runs the engine
injects `url` (the cleaned URL) and `url_hash` (`hashURL` of it); bound
parameters overlay these only when names collide. -/
def injectSystemParams (sha256 : String → List Nat)
    (params : List (String × String)) (url : String) : List (String × String) :=
  overlayParams [("url", url), ("url_hash", hashURL sha256 url)] params

theorem lookupKey_setKey_self (l : List (String × String)) (k v : String) :
    lookupKey (setKey l k v) k = some v := by
  induction l with
  | nil => simp [setKey, lookupKey]
  | cons kv rest ih =>
      by_cases hk : kv.1 = k
      · simp [setKey, hk, lookupKey]
      · simp [setKey, hk, lookupKey, ih]

theorem lookupKey_setKey_ne (l : List (String × String)) (k k' v : String)
    (h : k' ≠ k) : lookupKey (setKey l k' v) k = lookupKey l k := by
  induction l with
  | nil => simp [setKey, lookupKey, h]
  | cons kv rest ih =>
      by_cases hk : kv.1 = k'
      · simp [setKey, hk, lookupKey, h]
      · simp only [setKey, hk, if_false, lookupKey]
        by_cases hk2 : kv.1 = k
        · simp [hk2]
        · simp [hk2, ih]

theorem lookupKey_overlay_not_mem (ps : List (String × String)) :
    ∀ (base : List (String × String)) (k : String),
      k ∉ ps.map Prod.fst →
      lookupKey (overlayParams base ps) k = lookupKey base k := by
  induction ps with
  | nil => intro base k _; rfl
  | cons kv rest ih =>
      intro base k hk
      have hne : kv.1 ≠ k := fun he => hk (by simp [he.symm])
      show lookupKey (overlayParams (setKey base kv.1 kv.2) rest) k = _
      rw [ih (setKey base kv.1 kv.2) k (fun hm => hk (by simp [hm]))]
      exact lookupKey_setKey_ne base k kv.1 kv.2 hne

theorem lookupKey_overlay_mem (ps : List (String × String)) :
    ∀ (base : List (String × String)) (k : String),
      (ps.map Prod.fst).Nodup → k ∈ ps.map Prod.fst →
      lookupKey (overlayParams base ps) k = lookupKey ps k := by
  induction ps with
  | nil => intro base k _ hk; simp at hk
  | cons kv rest ih =>
      intro base k hnd hk
      simp only [List.map_cons, List.nodup_cons] at hnd
      by_cases he : kv.1 = k
      · subst he
        show lookupKey (overlayParams (setKey base kv.1 kv.2) rest) kv.1 = _
        rw [lookupKey_overlay_not_mem rest _ kv.1 hnd.1]
        rw [lookupKey_setKey_self]
        simp [lookupKey]
      · have hmem : k ∈ rest.map Prod.fst := by
          rw [List.map_cons] at hk
          rcases List.mem_cons.mp hk with h | h
          · exact absurd h.symm he
          · exact h
        show lookupKey (overlayParams (setKey base kv.1 kv.2) rest) k = _
        rw [ih _ k hnd.2 hmem]
        simp [lookupKey, he]

theorem hexLowerChars_take (bytes : List Nat) :
    ∀ n : Nat, (hexLowerChars bytes).take (2 * n) =
      hexLowerChars (bytes.take n) := by
  induction bytes with
  | nil => intro n; simp [hexLowerChars]
  | cons b bs ih =>
      intro n
      cases n with
      | zero => simp [hexLowerChars]
      | succ m =>
          show (hexLowerChars (b :: bs)).take (2 * (m + 1)) = _
          have h1 : hexLowerChars (b :: bs) =
              byteHexChars b ++ hexLowerChars bs := by
            simp [hexLowerChars]
          have h2 : (b :: bs).take (m + 1) = b :: bs.take m := rfl
          rw [h1, h2]
          have h3 : hexLowerChars (b :: bs.take m) =
              byteHexChars b ++ hexLowerChars (bs.take m) := by
            simp [hexLowerChars]
          rw [h3]
          show (hexDigitChar (b / 16) :: hexDigitChar (b % 16) ::
              hexLowerChars bs).take (2 * (m + 1)) = _
          have : 2 * (m + 1) = (2 * m) + 1 + 1 := by ring
          rw [this]
          simp only [List.take_succ_cons]
          rw [ih m]
          rfl

theorem hexDigitChar_range : ∀ d < 16,
    (48 ≤ (hexDigitChar d).toNat ∧ (hexDigitChar d).toNat ≤ 57) ∨
    (97 ≤ (hexDigitChar d).toNat ∧ (hexDigitChar d).toNat ≤ 102) := by
  decide

/-- C3.  At the start of every job execution the scope binds `url` to the
cleaned URL and `url_hash` to `hashURL(url)`; `hashURL(url)` is exactly the
lowercase hex of the first four digest bytes (8 hex characters), every one of
its characters being a lowercase hex digit; and workflow-bound parameters
overlay the system entries only on name collision (a bound parameter wins,
everything else leaves the system values visible). -/
theorem injectSystemParams_url_hash (sha256 : String → List Nat)
    (params : List (String × String)) (url : String)
    (hlen : (sha256 url).length = 32)
    (hbytes : ∀ b ∈ sha256 url, b < 256)
    (hnd : (params.map Prod.fst).Nodup) :
    ("url" ∉ params.map Prod.fst →
      lookupKey (injectSystemParams sha256 params url) "url" = some url) ∧
    ("url_hash" ∉ params.map Prod.fst →
      lookupKey (injectSystemParams sha256 params url) "url_hash" =
        some (hashURL sha256 url)) ∧
    (hashURL sha256 url = ⟨hexLowerChars ((sha256 url).take 4)⟩) ∧
    ((hashURL sha256 url).data.length = 8) ∧
    (∀ c ∈ (hashURL sha256 url).data,
      (48 ≤ c.toNat ∧ c.toNat ≤ 57) ∨ (97 ≤ c.toNat ∧ c.toNat ≤ 102)) ∧
    (∀ k, k ∈ params.map Prod.fst →
      lookupKey (injectSystemParams sha256 params url) k = lookupKey params k) := by
  refine ⟨?_, ?_, ?_, ?_, ?_, ?_⟩
  · intro hmem
    unfold injectSystemParams
    rw [lookupKey_overlay_not_mem params _ _ hmem]
    rfl
  · intro hmem
    unfold injectSystemParams
    rw [lookupKey_overlay_not_mem params _ _ hmem]
    rfl
  · unfold hashURL
    exact congrArg String.mk (hexLowerChars_take (sha256 url) 4)
  · unfold hashURL
    show ((hexLowerChars (sha256 url)).take 8).length = 8
    rw [List.length_take]
    have hfl : (hexLowerChars (sha256 url)).length = 2 * 32 := by
      unfold hexLowerChars
      rw [List.length_flatten]
      have : ∀ l : List Nat, ((l.map byteHexChars).map List.length).sum =
          2 * l.length := by
        intro l
        induction l with
        | nil => rfl
        | cons x xs ihx =>
            simp only [List.map_cons, List.sum_cons, ihx]
            show (byteHexChars x).length + 2 * xs.length = 2 * (xs.length + 1)
            simp [byteHexChars]
            ring
      rw [this, hlen]
    omega
  · intro c hc
    unfold hashURL at hc
    have hc' : c ∈ hexLowerChars (sha256 url) :=
      List.take_subset 8 _ hc
    unfold hexLowerChars at hc'
    obtain ⟨chunk, hchunk, hcc⟩ := List.mem_flatten.mp hc'
    obtain ⟨b, hb, rfl⟩ := List.mem_map.mp hchunk
    have hblt := hbytes b hb
    have hd1 : b / 16 < 16 := by omega
    have hd2 : b % 16 < 16 := by omega
    simp only [byteHexChars, List.mem_cons, List.not_mem_nil, or_false] at hcc
    rcases hcc with rfl | rfl
    · exact hexDigitChar_range _ hd1
    · exact hexDigitChar_range _ hd2
  · intro k hk
    unfold injectSystemParams
    exact lookupKey_overlay_mem params _ k hnd hk

/-- Witness for `injectSystemParams_url_hash` with a concrete 32-byte digest
oracle and the scope binding of `TestInjectSystemParams`. -/
theorem injectSystemParams_url_hash_witness :
    lookupKey (injectSystemParams (fun _ => List.range 32)
      [("user", "alice")] "http://example.com") "url" = some "http://example.com" ∧
    lookupKey (injectSystemParams (fun _ => List.range 32)
      [("user", "alice")] "http://example.com") "user" = some "alice" := by
  have h := injectSystemParams_url_hash (fun _ => List.range 32)
    [("user", "alice")] "http://example.com" (by decide) (by decide) (by decide)
  exact ⟨h.1 (by decide), h.2.2.2.2.2 "user" (by decide)⟩

/-! ## The V2 execution engine, modelled from the spec

The engine that `src/cmd/plumber/execution_v2_test.go` tests (`executeStep`
taking a workspace directory, `save_to` capture, `injectSystemParams`, HTML
staging) is not among the sources under src/ — the `execution_v2.go` present
there is an earlier revision whose signatures the test file does not even
call.  The definitions below are therefore modelled from the spec (§4.8–§4.10)
and the test file's calls.  The shell is the oracle
`shell : script → cwd → ShellResult`; every spawned child is recorded as an
event carrying its working directory. -/

/-- Outcome of one `sh -c` child: exit success and captured stdout. -/
structure ShellResult where
  ok : Bool
  stdout : String
deriving DecidableEq

/-- Observable effects of the engine: workspace creation/removal, child
spawns (with their CWD), and stdout streamed to the diagnostic stream. -/
inductive EvV2 where
  | mkdir (d : String)
  | rmdir (d : String)
  | spawn (script : String) (cwd : String)
  | stream (out : String)
deriving DecidableEq

/-- `unicode.IsSpace` restricted to Latin-1, as used by `strings.TrimSpace`. -/
def isSpaceGo (c : Char) : Bool :=
  c.toNat = 9 || c.toNat = 10 || c.toNat = 11 || c.toNat = 12 ||
  c.toNat = 13 || c.toNat = 32 || c.toNat = 133 || c.toNat = 160

/-- `strings.TrimSpace`: drop leading and trailing whitespace. -/
def trimSpace (s : String) : String :=
  ⟨((s.data.dropWhile isSpaceGo).reverse.dropWhile isSpaceGo).reverse⟩

/-- The script of a shell step: scalar form carries it in `args`, mapping form
as the `command` entry of its params. -/
def runScript (step : Step) : String :=
  if step.args ≠ "" then step.args else (lookupKey step.params "command").getD ""

/-- The `save_to` destination of a shell step, if any. -/
def saveToOf (step : Step) : Option String :=
  lookupKey step.params "save_to"

/-- Modelled from the spec (§4.5, §4.8): resolve `<<parameters.*>>` against
the scope, then the literal `{url}`, then `{html}` as the absolute path of the
staged HTML file inside the workspace. -/
def resolveScript (scope : List (String × String)) (url html ws : String)
    (raw : String) : String :=
  goReplaceAll (goReplaceAll (resolveParams scope raw) "{url}" url)
    "{html}" (ws ++ "/page.html")

/-- A command's declared parameter defaults. -/
def defaultsOf (cmdDef : Command) : List (String × String) :=
  cmdDef.parameters.map (fun kv => (kv.1, kv.2.deflt))

/-- Modelled from the spec (§4.9–§4.10): run a list of steps against a scope,
with the workspace `ws` as every child's CWD.  A shell step spawns
`sh -c` (resolved script); with `save_to` its trimmed stdout is bound in the
scope, otherwise stdout is streamed; non-zero exit fails the step and aborts.
A command-reference step resolves its bindings in the current scope, builds a
fresh scope from the command's defaults overlaid with the bindings and the
system parameters, runs the command's steps against it, and discards it on
return.  `fuel` bounds nesting depth (the Go stack); it is structural only. -/
def execSteps (shell : String → String → ShellResult) (sha256 : String → List Nat)
    (cfg : Config) (url html ws : String) :
    Nat → List Step → List (String × String) →
      List EvV2 × Except String Unit × List (String × String)
  | 0, _, scope => ([], Except.error "recursion depth exceeded", scope)
  | _ + 1, [], scope => ([], Except.ok (), scope)
  | n + 1, step :: rest, scope =>
    if step.name = "run" then
      let script := resolveScript scope url html ws (runScript step)
      let r := shell script ws
      match saveToOf step with
      | some k =>
          if r.ok then
            let scope' := setKey scope k (trimSpace r.stdout)
            let t := execSteps shell sha256 cfg url html ws n rest scope'
            (EvV2.spawn script ws :: t.1, t.2.1, t.2.2)
          else ([EvV2.spawn script ws], Except.error "run step failed", scope)
      | none =>
          if r.ok then
            let t := execSteps shell sha256 cfg url html ws n rest scope
            (EvV2.spawn script ws :: EvV2.stream r.stdout :: t.1, t.2.1, t.2.2)
          else ([EvV2.spawn script ws, EvV2.stream r.stdout],
                Except.error "run step failed", scope)
    else
      match lookupNamed cfg.commands step.name with
      | none => ([], Except.error ("unknown command or step: " ++ step.name), scope)
      | some cmdDef =>
          let callParams := step.params.map (fun kv => (kv.1, resolveParams scope kv.2))
          let fresh := injectSystemParams sha256
            (overlayParams (defaultsOf cmdDef) callParams) url
          let c := execSteps shell sha256 cfg url html ws n cmdDef.steps fresh
          match c.2.1 with
          | Except.error e => (c.1, Except.error e, scope)
          | Except.ok _ =>
              let t := execSteps shell sha256 cfg url html ws n rest scope
              (c.1 ++ t.1, t.2.1, t.2.2)

/-- Modelled from the spec (§4.9): per job, create the workspace, build the
initial scope from the workflow-bound params with the system params injected,
run the steps, and remove the workspace on every exit path. -/
def executeJob (shell : String → String → ShellResult) (sha256 : String → List Nat)
    (cfg : Config) (job : Job) (wfParams : List (String × String))
    (url html ws : String) (fuel : Nat) : List EvV2 × Except String Unit :=
  let scope0 := injectSystemParams sha256 wfParams url
  let r := execSteps shell sha256 cfg url html ws fuel job.steps scope0
  (EvV2.mkdir ws :: r.1 ++ [EvV2.rmdir ws], r.2.1)

/-- Replay a trace over the existence bit of directory `d`. -/
def dirAliveFrom (d : String) (b : Bool) : List EvV2 → Bool
  | [] => b
  | EvV2.mkdir d' :: rest => dirAliveFrom d (if d' = d then true else b) rest
  | EvV2.rmdir d' :: rest => dirAliveFrom d (if d' = d then false else b) rest
  | _ :: rest => dirAliveFrom d b rest

/-- Does directory `d` exist after replaying the trace (created and not
subsequently removed)? -/
def dirAlive (d : String) (evs : List EvV2) : Bool :=
  dirAliveFrom d false evs

theorem execSteps_events (shell : String → String → ShellResult)
    (sha256 : String → List Nat) (cfg : Config) (url html ws : String) :
    ∀ (fuel : Nat) (steps : List Step) (scope : List (String × String)),
      ∀ e ∈ (execSteps shell sha256 cfg url html ws fuel steps scope).1,
        (∃ s, e = EvV2.spawn s ws) ∨ (∃ o, e = EvV2.stream o) := by
  intro fuel
  induction fuel with
  | zero => intro steps scope e he; simp [execSteps] at he
  | succ n ih =>
      intro steps scope e he
      cases steps with
      | nil => simp [execSteps] at he
      | cons step rest =>
          by_cases hrun : step.name = "run"
          · simp only [execSteps, hrun, if_true] at he
            cases hsv : saveToOf step with
            | some k =>
                rw [hsv] at he
                by_cases hok : (shell (resolveScript scope url html ws
                    (runScript step)) ws).ok = true
                · simp only [hok, if_true] at he
                  rcases List.mem_cons.mp he with rfl | he'
                  · exact Or.inl ⟨_, rfl⟩
                  · exact ih rest _ e he'
                · have hok' : (shell (resolveScript scope url html ws
                      (runScript step)) ws).ok = false := by simpa using hok
                  simp only [hok', Bool.false_eq_true, if_false] at he
                  rcases List.mem_cons.mp he with rfl | he'
                  · exact Or.inl ⟨_, rfl⟩
                  · simp at he'
            | none =>
                rw [hsv] at he
                by_cases hok : (shell (resolveScript scope url html ws
                    (runScript step)) ws).ok = true
                · simp only [hok, if_true] at he
                  rcases List.mem_cons.mp he with rfl | he'
                  · exact Or.inl ⟨_, rfl⟩
                  · rcases List.mem_cons.mp he' with rfl | he''
                    · exact Or.inr ⟨_, rfl⟩
                    · exact ih rest _ e he''
                · have hok' : (shell (resolveScript scope url html ws
                      (runScript step)) ws).ok = false := by simpa using hok
                  simp only [hok', Bool.false_eq_true, if_false] at he
                  rcases List.mem_cons.mp he with rfl | he'
                  · exact Or.inl ⟨_, rfl⟩
                  · rcases List.mem_cons.mp he' with rfl | he''
                    · exact Or.inr ⟨_, rfl⟩
                    · simp at he''
          · simp only [execSteps, if_neg hrun] at he
            split at he
            · simp at he
            · split at he
              · exact ih _ _ e he
              · rcases List.mem_append.mp he with he' | he'
                · exact ih _ _ e he'
                · exact ih rest _ e he'

theorem dirAliveFrom_append (d : String) :
    ∀ (A B : List EvV2) (b : Bool),
      dirAliveFrom d b (A ++ B) = dirAliveFrom d (dirAliveFrom d b A) B := by
  intro A
  induction A with
  | nil => intro B b; rfl
  | cons e A' ih =>
      intro B b
      cases e <;> simp only [List.cons_append, dirAliveFrom] <;> exact ih B _

theorem dirAliveFrom_const (d : String) :
    ∀ (evs : List EvV2) (b : Bool),
      (∀ e ∈ evs, (∃ s, e = EvV2.spawn s d) ∨ (∃ o, e = EvV2.stream o)) →
      dirAliveFrom d b evs = b := by
  intro evs
  induction evs with
  | nil => intro b _; rfl
  | cons e evs' ih =>
      intro b h
      rcases h e (by simp) with ⟨s, rfl⟩ | ⟨o, rfl⟩ <;>
        exact ih b (fun x hx => h x (by simp [hx]))

/-- C2 (spec-modelled).  For every job execution: every child process spawned
while executing the job (including inside nested commands) has the job's
workspace `ws` as its CWD; the trace opens by creating `ws` and closes by
removing it, so `ws` no longer exists after the job returns — whatever the
result (success or failure). -/
theorem executeJob_workspace (shell : String → String → ShellResult)
    (sha256 : String → List Nat) (cfg : Config) (job : Job)
    (wfParams : List (String × String)) (url html ws : String) (fuel : Nat) :
    (∀ s c, EvV2.spawn s c ∈ (executeJob shell sha256 cfg job wfParams url html ws fuel).1 →
      c = ws) ∧
    dirAlive ws (executeJob shell sha256 cfg job wfParams url html ws fuel).1 = false ∧
    (executeJob shell sha256 cfg job wfParams url html ws fuel).1.head? =
      some (EvV2.mkdir ws) ∧
    (executeJob shell sha256 cfg job wfParams url html ws fuel).1.getLast? =
      some (EvV2.rmdir ws) := by
  have hev := execSteps_events shell sha256 cfg url html ws fuel job.steps
    (injectSystemParams sha256 wfParams url)
  refine ⟨?_, ?_, ?_, ?_⟩
  · intro s c hm
    unfold executeJob at hm
    simp only [] at hm
    rcases List.mem_cons.mp hm with he | hm'
    · exact absurd he (by simp)
    · rcases List.mem_append.mp hm' with hmid | hlast
      · rcases hev _ hmid with ⟨s', heq⟩ | ⟨o, heq⟩
        · cases heq; rfl
        · cases heq
      · simp at hlast
  · unfold executeJob dirAlive
    simp only []
    show dirAliveFrom ws (if ws = ws then true else false) (_ ++ [EvV2.rmdir ws]) = false
    rw [if_pos rfl, dirAliveFrom_append, dirAliveFrom_const ws _ true hev]
    show dirAliveFrom ws (if ws = ws then false else true) [] = false
    rw [if_pos rfl]
    rfl
  · rfl
  · unfold executeJob
    simp only []
    rw [show EvV2.mkdir ws ::
        (execSteps shell sha256 cfg url html ws fuel job.steps
          (injectSystemParams sha256 wfParams url)).1 ++ [EvV2.rmdir ws] =
        (EvV2.mkdir ws ::
          (execSteps shell sha256 cfg url html ws fuel job.steps
            (injectSystemParams sha256 wfParams url)).1) ++ [EvV2.rmdir ws]
      from by simp]
    exact List.getLast?_concat _

/-- Witness for `executeJob_workspace`: a one-step job in workspace
`/tmp/plumber-1`; its only spawn's CWD is that workspace and the directory is
gone afterwards. -/
theorem executeJob_workspace_witness :
    ("/tmp/plumber-1" : String) = "/tmp/plumber-1" ∧
    dirAlive "/tmp/plumber-1"
      (executeJob (fun _ _ => ⟨true, "out"⟩) (fun _ => List.range 32)
        ⟨"2", [], [], []⟩ ⟨[⟨"run", "echo hi", []⟩]⟩ [] "https://e.com" ""
        "/tmp/plumber-1" 4).1 = false := by
  have h := executeJob_workspace (fun _ _ => ⟨true, "out"⟩) (fun _ => List.range 32)
    ⟨"2", [], [], []⟩ ⟨[⟨"run", "echo hi", []⟩]⟩ [] "https://e.com" ""
    "/tmp/plumber-1" 4
  refine ⟨h.1 "echo hi" "/tmp/plumber-1" ?_, h.2.1⟩
  decide

/-- C4 (spec-modelled).  For a shell step with `save_to: k` whose child exits
successfully, the engine captures the child's stdout, trims surrounding
whitespace, and binds it to `k` in the current scope — the continuation (the
remaining steps of the same job) runs against exactly that extended scope, in
which `k` looks up to the trimmed stdout — and nothing is streamed.  Without
`save_to`, stdout is streamed to the diagnostic stream and the scope is left
unchanged for the remaining steps. -/
theorem executeStep_save_to (shell : String → String → ShellResult)
    (sha256 : String → List Nat) (cfg : Config) (url html ws : String)
    (n : Nat) (step : Step) (rest : List Step) (scope : List (String × String))
    (hrun : step.name = "run")
    (hok : (shell (resolveScript scope url html ws (runScript step)) ws).ok = true) :
    (∀ k, saveToOf step = some k →
      execSteps shell sha256 cfg url html ws (n + 1) (step :: rest) scope =
        (EvV2.spawn (resolveScript scope url html ws (runScript step)) ws ::
          (execSteps shell sha256 cfg url html ws n rest
            (setKey scope k (trimSpace
              (shell (resolveScript scope url html ws (runScript step)) ws).stdout))).1,
         (execSteps shell sha256 cfg url html ws n rest
            (setKey scope k (trimSpace
              (shell (resolveScript scope url html ws (runScript step)) ws).stdout))).2.1,
         (execSteps shell sha256 cfg url html ws n rest
            (setKey scope k (trimSpace
              (shell (resolveScript scope url html ws (runScript step)) ws).stdout))).2.2) ∧
      lookupKey (setKey scope k (trimSpace
          (shell (resolveScript scope url html ws (runScript step)) ws).stdout)) k =
        some (trimSpace
          (shell (resolveScript scope url html ws (runScript step)) ws).stdout)) ∧
    (saveToOf step = none →
      execSteps shell sha256 cfg url html ws (n + 1) (step :: rest) scope =
        (EvV2.spawn (resolveScript scope url html ws (runScript step)) ws ::
          EvV2.stream (shell (resolveScript scope url html ws (runScript step)) ws).stdout ::
          (execSteps shell sha256 cfg url html ws n rest scope).1,
         (execSteps shell sha256 cfg url html ws n rest scope).2.1,
         (execSteps shell sha256 cfg url html ws n rest scope).2.2)) := by
  constructor
  · intro k hsv
    constructor
    · simp only [execSteps, hrun, if_true, hsv, hok]
    · exact lookupKey_setKey_self scope k _
  · intro hsv
    simp only [execSteps, hrun, if_true, hsv, hok]

/-- Witness for `executeStep_save_to`, mirroring `TestExecuteStep_SaveTo`:
`echo 'important_data'` captured into `captured` and visible afterwards. -/
theorem executeStep_save_to_witness :
    lookupKey (setKey [] "captured" (trimSpace
      ((fun _ _ => (⟨true, "important_data\n"⟩ : ShellResult))
        (resolveScript [] "http://test.com" "" "/tmp/plumber-2"
          (runScript ⟨"run", "", [("command", "echo 'important_data'"), ("save_to", "captured")]⟩))
        "/tmp/plumber-2").stdout)) "captured" = some "important_data" := by
  have h := executeStep_save_to (fun _ _ => (⟨true, "important_data\n"⟩ : ShellResult))
    (fun _ => List.range 32) ⟨"2", [], [], []⟩ "http://test.com" "" "/tmp/plumber-2" 3
    ⟨"run", "", [("command", "echo 'important_data'"), ("save_to", "captured")]⟩
    [] [] rfl (by decide)
  have h2 := (h.1 "captured" (by decide)).2
  have htrim : trimSpace "important_data\n" = "important_data" := by decide
  rw [show (trimSpace ((fun _ _ => (⟨true, "important_data\n"⟩ : ShellResult))
      (resolveScript [] "http://test.com" "" "/tmp/plumber-2"
        (runScript ⟨"run", "", [("command", "echo 'important_data'"), ("save_to", "captured")]⟩))
      "/tmp/plumber-2").stdout) = "important_data" from htrim] at h2 ⊢
  exact h2

/-- C5 (spec-modelled).  A command-reference step enters the referenced
command with a fresh scope built by overlaying the caller-resolved argument
bindings on the command's parameter defaults and injecting the system
parameters on top; the caller's scope influences the command only through the
resolved bindings (two caller scopes resolving the bindings identically
produce identical command behaviour), and on return the fresh scope is
discarded — the caller's scope is returned unchanged. -/
theorem executeCommand_fresh_scope (shell : String → String → ShellResult)
    (sha256 : String → List Nat) (cfg : Config) (url html ws : String)
    (n : Nat) (step : Step) (scope₁ scope₂ : List (String × String))
    (cmdDef : Command)
    (hnr : step.name ≠ "run")
    (hcmd : lookupNamed cfg.commands step.name = some cmdDef)
    (hbind : step.params.map (fun kv => (kv.1, resolveParams scope₁ kv.2)) =
             step.params.map (fun kv => (kv.1, resolveParams scope₂ kv.2))) :
    (execSteps shell sha256 cfg url html ws (n + 1) [step] scope₁).2.2 = scope₁ ∧
    (execSteps shell sha256 cfg url html ws (n + 1) [step] scope₁).1 =
      (execSteps shell sha256 cfg url html ws n cmdDef.steps
        (injectSystemParams sha256 (overlayParams (defaultsOf cmdDef)
          (step.params.map (fun kv => (kv.1, resolveParams scope₁ kv.2)))) url)).1 ∧
    (execSteps shell sha256 cfg url html ws (n + 1) [step] scope₁).1 =
      (execSteps shell sha256 cfg url html ws (n + 1) [step] scope₂).1 ∧
    (execSteps shell sha256 cfg url html ws (n + 1) [step] scope₁).2.1 =
      (execSteps shell sha256 cfg url html ws (n + 1) [step] scope₂).2.1 := by
  have hnil : ∀ (m : Nat) (sc : List (String × String)),
      execSteps shell sha256 cfg url html ws m [] sc =
        ([], if m = 0 then Except.error "recursion depth exceeded" else Except.ok (), sc) := by
    intro m sc
    cases m with
    | zero => rfl
    | succ m' => rfl
  have hstep : ∀ sc : List (String × String),
      execSteps shell sha256 cfg url html ws (n + 1) [step] sc =
        (let c := execSteps shell sha256 cfg url html ws n cmdDef.steps
          (injectSystemParams sha256 (overlayParams (defaultsOf cmdDef)
            (step.params.map (fun kv => (kv.1, resolveParams sc kv.2)))) url)
         match c.2.1 with
         | Except.error e => (c.1, Except.error e, sc)
         | Except.ok _ =>
             let t := execSteps shell sha256 cfg url html ws n [] sc
             (c.1 ++ t.1, t.2.1, t.2.2)) := by
    intro sc
    simp only [execSteps, if_neg hnr, hcmd]
  have hfresh :
      injectSystemParams sha256 (overlayParams (defaultsOf cmdDef)
        (step.params.map (fun kv => (kv.1, resolveParams scope₂ kv.2)))) url =
      injectSystemParams sha256 (overlayParams (defaultsOf cmdDef)
        (step.params.map (fun kv => (kv.1, resolveParams scope₁ kv.2)))) url := by
    rw [hbind]
  refine ⟨?_, ?_, ?_, ?_⟩ <;>
    rw [hstep scope₁] <;>
    [skip; skip; rw [hstep scope₂, hfresh]; rw [hstep scope₂, hfresh]] <;>
    cases hc : (execSteps shell sha256 cfg url html ws n cmdDef.steps
      (injectSystemParams sha256 (overlayParams (defaultsOf cmdDef)
        (step.params.map (fun kv => (kv.1, resolveParams scope₁ kv.2)))) url)).2.1 <;>
    simp [hc, hnil]

/-- Witness for `executeCommand_fresh_scope`: two caller scopes that agree on
the single bound argument (but differ elsewhere) drive the command
identically, and the caller scope comes back unchanged. -/
theorem executeCommand_fresh_scope_witness :
    (execSteps (fun _ _ => ⟨true, "out"⟩) (fun _ => List.range 32)
      ⟨"2", [("greet", ⟨[("name", ⟨"string", "world"⟩)],
        [⟨"run", "echo <<parameters.name>>", []⟩]⟩)], [], []⟩
      "http://t" "" "/tmp/plumber-3" 3
      [⟨"greet", "", [("name", "<<parameters.x>>")]⟩] [("x", "1")]).2.2 =
      [("x", "1")] ∧
    (execSteps (fun _ _ => ⟨true, "out"⟩) (fun _ => List.range 32)
      ⟨"2", [("greet", ⟨[("name", ⟨"string", "world"⟩)],
        [⟨"run", "echo <<parameters.name>>", []⟩]⟩)], [], []⟩
      "http://t" "" "/tmp/plumber-3" 3
      [⟨"greet", "", [("name", "<<parameters.x>>")]⟩] [("x", "1")]).1 =
    (execSteps (fun _ _ => ⟨true, "out"⟩) (fun _ => List.range 32)
      ⟨"2", [("greet", ⟨[("name", ⟨"string", "world"⟩)],
        [⟨"run", "echo <<parameters.name>>", []⟩]⟩)], [], []⟩
      "http://t" "" "/tmp/plumber-3" 3
      [⟨"greet", "", [("name", "<<parameters.x>>")]⟩] [("x", "1"), ("y", "2")]).1 := by
  have h := executeCommand_fresh_scope (fun _ _ => ⟨true, "out"⟩)
    (fun _ => List.range 32)
    ⟨"2", [("greet", ⟨[("name", ⟨"string", "world"⟩)],
      [⟨"run", "echo <<parameters.name>>", []⟩]⟩)], [], []⟩
    "http://t" "" "/tmp/plumber-3" 2
    ⟨"greet", "", [("name", "<<parameters.x>>")]⟩
    [("x", "1")] [("x", "1"), ("y", "2")]
    ⟨[("name", ⟨"string", "world"⟩)], [⟨"run", "echo <<parameters.name>>", []⟩]⟩
    (by decide) rfl (by decide)
  exact ⟨h.1, h.2.2.1⟩

/-! ## URL canonicalizer (the V2 main file, `cleanURL`)

`cleanURL` delegates to the Go standard library: `url.Parse`, `URL.Query()`
(`url.parseQuery` with the error discarded), `Values.Del`, `Values.Encode`
and `URL.String`.  The query pipeline — percent-escaping, `&`/`=` splitting,
deletion, sorted re-encoding — is embedded concretely below from the
`net/url` sources, over byte strings (`List Nat`); only `url.Parse` /
`URL.String` remain abstract, related by a round-trip hypothesis. -/

/-- Go byte strings. -/
abbrev GoStr := List Nat

/-- strings.Cut on a single-byte separator: (before, after, found). -/
def cutByte : GoStr → Nat → GoStr × GoStr × Bool
  | [], _ => ([], [], false)
  | b :: rest, sep =>
    if b = sep then ([], rest, true)
    else
      let r := cutByte rest sep
      (b :: r.1, r.2.1, r.2.2)

def isHexB (b : Nat) : Bool :=
  (Nat.ble 48 b && Nat.ble b 57) || (Nat.ble 65 b && Nat.ble b 70) ||
  (Nat.ble 97 b && Nat.ble b 102)

def unhexB (b : Nat) : Nat :=
  if 48 ≤ b ∧ b ≤ 57 then b - 48
  else if 65 ≤ b ∧ b ≤ 70 then b - 55
  else if 97 ≤ b ∧ b ≤ 102 then b - 87
  else 0

/-- url.QueryUnescape, with structural fuel (each iteration consumes at least
one byte, so `s.length` fuel suffices): %XX decoded, '+' to space, bad escapes
are errors. -/
def queryUnescapeAux : Nat → GoStr → Option GoStr
  | 0, s => if s = [] then some [] else none
  | fuel + 1, s =>
    match s with
    | [] => some []
    | b :: rest =>
      if b = 37 then
        match rest with
        | h1 :: h2 :: rest' =>
          if isHexB h1 && isHexB h2 then
            (queryUnescapeAux fuel rest').map
              (fun t => (unhexB h1 * 16 + unhexB h2) :: t)
          else none
        | _ => none
      else if b = 43 then (queryUnescapeAux fuel rest).map (fun t => 32 :: t)
      else (queryUnescapeAux fuel rest).map (fun t => b :: t)

/-- url.QueryUnescape. -/
def queryUnescape (s : GoStr) : Option GoStr :=
  queryUnescapeAux (s.length + 1) s

/-- Bytes left unescaped by url.QueryEscape: alphanumerics and -_.~ . -/
def isUnreservedB (b : Nat) : Bool :=
  (Nat.ble 48 b && Nat.ble b 57) || (Nat.ble 65 b && Nat.ble b 90) ||
  (Nat.ble 97 b && Nat.ble b 122) || b == 45 || b == 95 || b == 46 || b == 126

def upperHexB (d : Nat) : Nat := if d < 10 then 48 + d else 55 + d

/-- url.QueryEscape: space to '+', unreserved bytes kept, others %XX. -/
def queryEscape : GoStr → GoStr
  | [] => []
  | b :: rest =>
    (if b = 32 then [43]
     else if isUnreservedB b then [b]
     else [37, upperHexB (b / 16), upperHexB (b % 16)]) ++ queryEscape rest

theorem unhexB_upperHexB (d : Nat) (hd : d < 16) :
    isHexB (upperHexB d) = true ∧ unhexB (upperHexB d) = d := by
  interval_cases d <;> constructor <;> decide

theorem queryEscape_mem (s : GoStr) (hs : ∀ b ∈ s, b < 256) :
    ∀ b ∈ queryEscape s, b = 43 ∨ b = 37 ∨ (∃ d < 16, b = upperHexB d) ∨
      (isUnreservedB b = true) := by
  induction s with
  | nil => intro b hb; simp [queryEscape] at hb
  | cons c rest ih =>
      intro b hb
      have hc := hs c (by simp)
      simp only [queryEscape, List.mem_append] at hb
      rcases hb with hb | hb
      · by_cases h32 : c = 32
        · simp [h32] at hb
          simp [hb]
        · by_cases hun : isUnreservedB c = true
          · simp [h32, hun] at hb
            subst hb
            exact Or.inr (Or.inr (Or.inr hun))
          · have hun' : isUnreservedB c = false := by simpa using hun
            simp [h32, hun'] at hb
            rcases hb with hb | hb | hb
            · simp [hb]
            · exact Or.inr (Or.inr (Or.inl ⟨c / 16, by omega, hb⟩))
            · exact Or.inr (Or.inr (Or.inl ⟨c % 16, by omega, hb⟩))
      · exact ih (fun x hx => hs x (by simp [hx])) b hb

theorem queryEscape_not_special (s : GoStr) (hs : ∀ b ∈ s, b < 256) :
    (38 ∉ queryEscape s) ∧ (59 ∉ queryEscape s) ∧ (61 ∉ queryEscape s) := by
  refine ⟨?_, ?_, ?_⟩ <;>
    · intro hmem
      rcases queryEscape_mem s hs _ hmem with h | h | ⟨d, hd, h⟩ | h
      · omega
      · omega
      · interval_cases d <;> exact absurd h (by decide)
      · exact absurd h (by decide)

theorem queryUnescapeAux_cons43 (f : Nat) (rest : GoStr) :
    queryUnescapeAux (f + 1) (43 :: rest) =
      (queryUnescapeAux f rest).map (fun t => 32 :: t) := rfl

theorem queryUnescapeAux_cons37 (f : Nat) (h1 h2 : Nat) (rest : GoStr) :
    queryUnescapeAux (f + 1) (37 :: h1 :: h2 :: rest) =
      (if isHexB h1 && isHexB h2 then
        (queryUnescapeAux f rest).map (fun t => (unhexB h1 * 16 + unhexB h2) :: t)
      else none) := rfl

theorem queryUnescapeAux_cons_other (f : Nat) (b : Nat) (rest : GoStr)
    (h37 : b ≠ 37) (h43 : b ≠ 43) :
    queryUnescapeAux (f + 1) (b :: rest) =
      (queryUnescapeAux f rest).map (fun t => b :: t) := by
  show (if b = 37 then _ else if b = 43 then (queryUnescapeAux f rest).map (fun t => 32 :: t)
    else (queryUnescapeAux f rest).map (fun t => b :: t)) = _
  rw [if_neg h37, if_neg h43]

theorem queryEscape_cons (b : Nat) (rest : GoStr) :
    queryEscape (b :: rest) =
      (if b = 32 then [43]
       else if isUnreservedB b then [b]
       else [37, upperHexB (b / 16), upperHexB (b % 16)]) ++ queryEscape rest := rfl

theorem queryUnescapeAux_queryEscape (fuel : Nat) :
    ∀ s : GoStr, (∀ b ∈ s, b < 256) → (queryEscape s).length < fuel →
    queryUnescapeAux fuel (queryEscape s) = some s := by
  induction fuel with
  | zero => intro s _ hlen; omega
  | succ f ih =>
      intro s hs hlen
      cases s with
      | nil => rfl
      | cons b rest =>
          have hb := hs b (by simp)
          have hs' : ∀ x ∈ rest, x < 256 := fun x hx => hs x (by simp [hx])
          rw [queryEscape_cons] at hlen ⊢
          by_cases h32 : b = 32
          · subst h32
            rw [if_pos rfl] at hlen ⊢
            show queryUnescapeAux (f + 1) (43 :: queryEscape rest) = _
            rw [queryUnescapeAux_cons43, ih rest hs'
              (by simp at hlen; omega)]
            rfl
          · rw [if_neg h32] at hlen ⊢
            by_cases hun : isUnreservedB b = true
            · have hb37 : b ≠ 37 := by
                intro he; rw [he] at hun; exact absurd hun (by decide)
              have hb43 : b ≠ 43 := by
                intro he; rw [he] at hun; exact absurd hun (by decide)
              rw [if_pos hun] at hlen ⊢
              show queryUnescapeAux (f + 1) (b :: queryEscape rest) = _
              rw [queryUnescapeAux_cons_other f b _ hb37 hb43, ih rest hs'
                (by simp at hlen; omega)]
              rfl
            · have hun' : isUnreservedB b = false := by simpa using hun
              have hd1 : b / 16 < 16 := by omega
              have hd2 : b % 16 < 16 := by omega
              obtain ⟨hh1, hv1⟩ := unhexB_upperHexB _ hd1
              obtain ⟨hh2, hv2⟩ := unhexB_upperHexB _ hd2
              rw [if_neg (by simp [hun'])] at hlen ⊢
              show queryUnescapeAux (f + 1) (37 :: upperHexB (b / 16) ::
                upperHexB (b % 16) :: queryEscape rest) = _
              rw [queryUnescapeAux_cons37, if_pos (by simp [hh1, hh2]),
                ih rest hs' (by simp at hlen; omega), hv1, hv2]
              have hbb : b / 16 * 16 + b % 16 = b := by omega
              rw [hbb]
              rfl

theorem queryUnescape_queryEscape (s : GoStr) (hs : ∀ b ∈ s, b < 256) :
    queryUnescape (queryEscape s) = some s :=
  queryUnescapeAux_queryEscape _ s hs (by omega)

theorem queryUnescapeAux_bytes (fuel : Nat) :
    ∀ (s out : GoStr), (∀ b ∈ s, b < 256) →
      queryUnescapeAux fuel s = some out → ∀ b ∈ out, b < 256 := by
  induction fuel with
  | zero =>
      intro s out _ hsome b hb
      by_cases he : s = []
      · rw [he] at hsome
        simp [queryUnescapeAux] at hsome
        subst hsome
        simp at hb
      · simp [queryUnescapeAux, he] at hsome
  | succ f ih =>
      intro s out hs hsome b hb
      cases s with
      | nil =>
          have h' : some ([] : GoStr) = some out := hsome
          have : out = [] := by simpa using h'
          subst this
          simp at hb
      | cons c rest =>
          have hc := hs c (by simp)
          have hs' : ∀ x ∈ rest, x < 256 := fun x hx => hs x (by simp [hx])
          by_cases h37 : c = 37
          · subst h37
            cases rest with
            | nil => simp [queryUnescapeAux] at hsome
            | cons h1 rest1 =>
                cases rest1 with
                | nil => simp [queryUnescapeAux] at hsome
                | cons h2 rest' =>
                    rw [queryUnescapeAux_cons37] at hsome
                    by_cases hhex : (isHexB h1 && isHexB h2) = true
                    · rw [if_pos hhex] at hsome
                      cases ht : queryUnescapeAux f rest' with
                      | none => rw [ht] at hsome; simp at hsome
                      | some t =>
                          rw [ht] at hsome
                          simp at hsome
                          subst hsome
                          rcases List.mem_cons.mp hb with rfl | hb'
                          · have hu1 : unhexB h1 < 16 := by
                              unfold unhexB
                              split <;> try omega
                              split <;> try omega
                              split <;> omega
                            have hu2 : unhexB h2 < 16 := by
                              unfold unhexB
                              split <;> try omega
                              split <;> try omega
                              split <;> omega
                            omega
                          · exact ih rest' t
                              (fun x hx => hs' x (by simp [hx])) ht b hb'
                    · rw [if_neg hhex] at hsome
                      simp at hsome
          · by_cases h43 : c = 43
            · subst h43
              rw [queryUnescapeAux_cons43] at hsome
              cases ht : queryUnescapeAux f rest with
              | none => rw [ht] at hsome; simp at hsome
              | some t =>
                  rw [ht] at hsome
                  simp at hsome
                  subst hsome
                  rcases List.mem_cons.mp hb with rfl | hb'
                  · omega
                  · exact ih rest t hs' ht b hb'
            · rw [queryUnescapeAux_cons_other f c rest h37 h43] at hsome
              cases ht : queryUnescapeAux f rest with
              | none => rw [ht] at hsome; simp at hsome
              | some t =>
                  rw [ht] at hsome
                  simp at hsome
                  subst hsome
                  rcases List.mem_cons.mp hb with rfl | hb'
                  · exact hc
                  · exact ih rest t hs' ht b hb'

theorem cutByte_not_mem (sep : Nat) :
    ∀ q : GoStr, sep ∉ q → cutByte q sep = (q, [], false) := by
  intro q
  induction q with
  | nil => intro _; rfl
  | cons b rest ih =>
      intro h
      have hb : b ≠ sep := fun he => h (by simp [he])
      show (if b = sep then ([], rest, true) else
        (b :: (cutByte rest sep).1, (cutByte rest sep).2.1, (cutByte rest sep).2.2)) = _
      rw [if_neg hb, ih (fun hm => h (by simp [hm]))]

theorem cutByte_append_sep (sep : Nat) :
    ∀ (p t : GoStr), sep ∉ p → cutByte (p ++ sep :: t) sep = (p, t, true) := by
  intro p
  induction p with
  | nil => intro t _; simp [cutByte]
  | cons b p' ih =>
      intro t h
      have hb : b ≠ sep := fun he => h (by simp [he])
      show (if b = sep then ([], p' ++ sep :: t, true) else
        (b :: (cutByte (p' ++ sep :: t) sep).1,
         (cutByte (p' ++ sep :: t) sep).2.1,
         (cutByte (p' ++ sep :: t) sep).2.2)) = _
      rw [if_neg hb, ih t (fun hm => h (by simp [hm]))]

theorem cutByte_parts_subset (sep : Nat) :
    ∀ q : GoStr, (∀ b ∈ (cutByte q sep).1, b ∈ q) ∧
      (∀ b ∈ (cutByte q sep).2.1, b ∈ q) := by
  intro q
  induction q with
  | nil => constructor <;> intro b hb <;> simp [cutByte] at hb
  | cons c rest ih =>
      by_cases hc : c = sep
      · have hcut : cutByte (c :: rest) sep = ([], rest, true) := by
          show (if c = sep then (([] : GoStr), rest, true) else _) = _
          rw [if_pos hc]
        rw [hcut]
        constructor
        · intro b hb; simp at hb
        · intro b hb
          have hb' : b ∈ rest := hb
          simp [hb']
      · have hcut : cutByte (c :: rest) sep =
            (c :: (cutByte rest sep).1, (cutByte rest sep).2.1,
             (cutByte rest sep).2.2) := by
          show (if c = sep then ([], rest, true) else _) = _
          rw [if_neg hc]
        rw [hcut]
        constructor
        · intro b hb
          have hb' : b ∈ c :: (cutByte rest sep).1 := hb
          rcases List.mem_cons.mp hb' with rfl | hb2
          · simp
          · simp [ih.1 b hb2]
        · intro b hb
          have hb' : b ∈ (cutByte rest sep).2.1 := hb
          simp [ih.2 b hb']

theorem cutByte_after_len (sep : Nat) :
    ∀ q : GoStr, (cutByte q sep).2.1.length ≤ q.length := by
  intro q
  induction q with
  | nil => simp [cutByte]
  | cons c rest ih =>
      by_cases hc : c = sep
      · have hcut : cutByte (c :: rest) sep = ([], rest, true) := by
          show (if c = sep then (([] : GoStr), rest, true) else _) = _
          rw [if_pos hc]
        rw [hcut]
        simp
      · have hcut : cutByte (c :: rest) sep =
            (c :: (cutByte rest sep).1, (cutByte rest sep).2.1,
             (cutByte rest sep).2.2) := by
          show (if c = sep then ([], rest, true) else _) = _
          rw [if_neg hc]
        rw [hcut]
        show (cutByte rest sep).2.1.length ≤ rest.length + 1
        omega

theorem cutByte_after_lt (sep : Nat) (c : Nat) (rest : GoStr) :
    (cutByte (c :: rest) sep).2.1.length < (c :: rest).length := by
  by_cases hc : c = sep
  · have hcut : cutByte (c :: rest) sep = ([], rest, true) := by
      show (if c = sep then (([] : GoStr), rest, true) else _) = _
      rw [if_pos hc]
    rw [hcut]
    simp
  · have hcut : cutByte (c :: rest) sep =
        (c :: (cutByte rest sep).1, (cutByte rest sep).2.1,
         (cutByte rest sep).2.2) := by
      show (if c = sep then ([], rest, true) else _) = _
      rw [if_neg hc]
    rw [hcut]
    have := cutByte_after_len sep rest
    show (cutByte rest sep).2.1.length < rest.length + 1
    omega

/-- url.Values: key to ordered value list.  The Go map's iteration order is
irrelevant here because `Encode` sorts keys; entries are kept in insertion
order. -/
abbrev Values := List (GoStr × List GoStr)

/-- `m[key] = append(m[key], value)`. -/
def addVal : Values → GoStr → GoStr → Values
  | [], k, v => [(k, [v])]
  | (k', vs) :: rest, k, v =>
    if k' = k then (k', vs ++ [v]) :: rest else (k', vs) :: addVal rest k v

def keysOf (m : Values) : List GoStr := m.map Prod.fst

/-- The loop of `url.parseQuery` as run by `URL.Query()` (errors ignored:
a pair with a semicolon, an empty segment, or a bad escape is skipped). -/
def parseQueryLoop : Nat → GoStr → Values → Values
  | 0, _, m => m
  | fuel + 1, q, m =>
    if q = [] then m
    else
      let c := cutByte q 38
      let key := c.1
      let rest := c.2.1
      if 59 ∈ key then parseQueryLoop fuel rest m
      else if key = [] then parseQueryLoop fuel rest m
      else
        let kv := cutByte key 61
        match queryUnescape kv.1, queryUnescape kv.2.1 with
        | some k, some v => parseQueryLoop fuel rest (addVal m k v)
        | _, _ => parseQueryLoop fuel rest m

/-- `URL.Query()`: parse, ignoring the error. -/
def parseQueryGo (q : GoStr) : Values := parseQueryLoop (q.length + 1) q []

/-- `Values.Del`. -/
def delKey (m : Values) (k : GoStr) : Values := m.filter (fun e => e.1 ≠ k)

def asciiBytes (s : String) : GoStr := s.data.map Char.toNat

/-- The tracking parameters removed by `cleanURL`. -/
def trackedParams : List GoStr :=
  (["utm_source", "utm_medium", "utm_campaign", "utm_term", "utm_content",
    "fbclid", "gclid", "ref"]).map asciiBytes

def delTracked (m : Values) : Values := trackedParams.foldl delKey m

/-- Byte-lexicographic order (`sort.Strings` on the keys). -/
def leBytes : GoStr → GoStr → Bool
  | [], _ => true
  | _ :: _, [] => false
  | a :: as, b :: bs => if a < b then true else if b < a then false else leBytes as bs

def keyLe (a b : GoStr × List GoStr) : Prop := leBytes a.1 b.1 = true

instance : DecidableRel keyLe := fun a b =>
  inferInstanceAs (Decidable (leBytes a.1 b.1 = true))

theorem leBytes_cons (x y : Nat) (as bs : GoStr) :
    leBytes (x :: as) (y :: bs) =
      if x < y then true else if y < x then false else leBytes as bs := rfl

theorem leBytes_total : ∀ a b : GoStr, leBytes a b = true ∨ leBytes b a = true := by
  intro a
  induction a with
  | nil => intro b; left; rfl
  | cons x as ih =>
      intro b
      cases b with
      | nil => right; rfl
      | cons y bs =>
          rw [leBytes_cons, leBytes_cons]
          by_cases hxy : x < y
          · left; rw [if_pos hxy]
          · by_cases hyx : y < x
            · right; rw [if_pos hyx]
            · rw [if_neg hxy, if_neg hyx, if_neg hyx, if_neg hxy]
              exact ih bs

theorem leBytes_trans : ∀ a b c : GoStr,
    leBytes a b = true → leBytes b c = true → leBytes a c = true := by
  intro a
  induction a with
  | nil => intro b c _ _; rfl
  | cons x as ih =>
      intro b c hab hbc
      cases b with
      | nil => exact absurd hab (by simp [leBytes])
      | cons y bs =>
          cases c with
          | nil => exact absurd hbc (by simp [leBytes])
          | cons z cs =>
              rw [leBytes_cons] at hab hbc ⊢
              by_cases hxz : x < z
              · rw [if_pos hxz]
              · rw [if_neg hxz]
                by_cases hzx : z < x
                · exfalso
                  by_cases hxy : x < y
                  · by_cases hyz : y < z
                    · omega
                    · rw [if_neg hyz] at hbc
                      by_cases hzy : z < y
                      · rw [if_pos hzy] at hbc; simp at hbc
                      · omega
                  · rw [if_neg hxy] at hab
                    by_cases hyx : y < x
                    · rw [if_pos hyx] at hab; simp at hab
                    · by_cases hyz : y < z
                      · omega
                      · rw [if_neg hyz] at hbc
                        by_cases hzy : z < y
                        · rw [if_pos hzy] at hbc; simp at hbc
                        · omega
                · rw [if_neg hzx]
                  have hxzeq : x = z := by omega
                  subst hxzeq
                  by_cases hxy : x < y
                  · exfalso
                    by_cases hyz : y < x
                    · omega
                    · rw [if_neg hyz] at hbc
                      by_cases hzy : x < y
                      · rw [if_pos hzy] at hbc; simp at hbc
                      · omega
                  · rw [if_neg hxy] at hab
                    by_cases hyx : y < x
                    · rw [if_pos hyx] at hab; simp at hab
                    · rw [if_neg hyx] at hab
                      have hyxeq : y = x := by omega
                      subst hyxeq
                      rw [if_neg hxy, if_neg hyx] at hbc
                      exact ih bs cs hab hbc

instance : IsTotal (GoStr × List GoStr) keyLe :=
  ⟨fun a b => leBytes_total a.1 b.1⟩

instance : IsTrans (GoStr × List GoStr) keyLe :=
  ⟨fun a b c => leBytes_trans a.1 b.1 c.1⟩

/-- `Values.Encode` sorts the keys (here: the entries, keys being unique). -/
def sortVals (m : Values) : Values := m.insertionSort keyLe

def flatPairs (m : Values) : List (GoStr × GoStr) :=
  (m.map (fun e => e.2.map (fun v => (e.1, v)))).flatten

/-- One `k=v` pair as `Encode` writes it. -/
def encPair (kv : GoStr × GoStr) : GoStr :=
  queryEscape kv.1 ++ 61 :: queryEscape kv.2

/-- Join with '&' (written between pairs, not after the last). -/
def joinAmp : List GoStr → GoStr
  | [] => []
  | [p] => p
  | p :: q :: rest => p ++ 38 :: joinAmp (q :: rest)

/-- `Values.Encode`. -/
def encodeVals (m : Values) : GoStr := joinAmp ((flatPairs (sortVals m)).map encPair)

theorem parseQueryLoop_nil (fuel : Nat) (m : Values) :
    parseQueryLoop fuel [] m = m := by
  cases fuel with
  | zero => rfl
  | succ f =>
      show (if ([] : GoStr) = [] then m else _) = m
      rw [if_pos rfl]

theorem parseQueryLoop_succ (f : Nat) (q : GoStr) (m : Values) :
    parseQueryLoop (f + 1) q m =
      if q = [] then m
      else
        if 59 ∈ (cutByte q 38).1 then parseQueryLoop f (cutByte q 38).2.1 m
        else if (cutByte q 38).1 = [] then parseQueryLoop f (cutByte q 38).2.1 m
        else
          match queryUnescape (cutByte (cutByte q 38).1 61).1,
                queryUnescape (cutByte (cutByte q 38).1 61).2.1 with
          | some k, some v => parseQueryLoop f (cutByte q 38).2.1 (addVal m k v)
          | _, _ => parseQueryLoop f (cutByte q 38).2.1 m := rfl

theorem queryEscape_bytes (s : GoStr) (hs : ∀ b ∈ s, b < 256) :
    ∀ b ∈ queryEscape s, b < 256 := by
  intro b hb
  rcases queryEscape_mem s hs b hb with h | h | ⟨d, hd, h⟩ | h
  · omega
  · omega
  · subst h
    unfold upperHexB
    split <;> omega
  · simp only [isUnreservedB, Bool.or_eq_true, Bool.and_eq_true, beq_iff_eq,
      Nat.ble_eq] at h
    omega

theorem encPair_bytes (kv : GoStr × GoStr) (h1 : ∀ b ∈ kv.1, b < 256)
    (h2 : ∀ b ∈ kv.2, b < 256) : ∀ b ∈ encPair kv, b < 256 := by
  intro b hb
  unfold encPair at hb
  rcases List.mem_append.mp hb with h | h
  · exact queryEscape_bytes _ h1 b h
  · rcases List.mem_cons.mp h with rfl | h'
    · omega
    · exact queryEscape_bytes _ h2 b h'

theorem encPair_ne_nil (kv : GoStr × GoStr) : encPair kv ≠ [] := by
  unfold encPair
  intro h
  have := congrArg List.length h
  simp at this

theorem encPair_not_mem (kv : GoStr × GoStr) (h1 : ∀ b ∈ kv.1, b < 256)
    (h2 : ∀ b ∈ kv.2, b < 256) : 38 ∉ encPair kv ∧ 59 ∉ encPair kv := by
  constructor <;>
    · intro hmem
      unfold encPair at hmem
      rcases List.mem_append.mp hmem with h | h
      · first
        | exact (queryEscape_not_special _ h1).1 h
        | exact (queryEscape_not_special _ h1).2.1 h
      · rcases List.mem_cons.mp h with he | h'
        · omega
        · first
          | exact (queryEscape_not_special _ h2).1 h'
          | exact (queryEscape_not_special _ h2).2.1 h'

theorem cutByte_encPair (kv : GoStr × GoStr) (h1 : ∀ b ∈ kv.1, b < 256) :
    cutByte (encPair kv) 61 = (queryEscape kv.1, queryEscape kv.2, true) := by
  unfold encPair
  exact cutByte_append_sep 61 _ _ (queryEscape_not_special _ h1).2.2

theorem joinAmp_cons_cons (p q : GoStr) (rest : List GoStr) :
    joinAmp (p :: q :: rest) = p ++ 38 :: joinAmp (q :: rest) := rfl

theorem joinAmp_mem (b : Nat) :
    ∀ parts : List GoStr, b ∈ joinAmp parts → (∃ p ∈ parts, b ∈ p) ∨ b = 38 := by
  intro parts
  induction parts with
  | nil => intro h; simp [joinAmp] at h
  | cons p rest ih =>
      intro h
      cases rest with
      | nil =>
          exact Or.inl ⟨p, by simp, h⟩
      | cons q rest' =>
          rw [joinAmp_cons_cons] at h
          rcases List.mem_append.mp h with h' | h'
          · exact Or.inl ⟨p, by simp, h'⟩
          · rcases List.mem_cons.mp h' with rfl | h2
            · exact Or.inr rfl
            · rcases ih h2 with ⟨x, hx, hbx⟩ | h3
              · exact Or.inl ⟨x, by simp [hx], hbx⟩
              · exact Or.inr h3

theorem flatPairs_mem (m : Values) (kv : GoStr × GoStr) (h : kv ∈ flatPairs m) :
    ∃ e ∈ m, kv.1 = e.1 ∧ kv.2 ∈ e.2 := by
  unfold flatPairs at h
  obtain ⟨chunk, hchunk, hkv⟩ := List.mem_flatten.mp h
  obtain ⟨e, he, rfl⟩ := List.mem_map.mp hchunk
  obtain ⟨v, hv, rfl⟩ := List.mem_map.mp hkv
  exact ⟨e, he, rfl, hv⟩

theorem keysOf_addVal (k : GoStr) (v : GoStr) :
    ∀ m : Values, keysOf (addVal m k v) =
      if k ∈ keysOf m then keysOf m else keysOf m ++ [k] := by
  intro m
  induction m with
  | nil => simp [addVal, keysOf]
  | cons e rest ih =>
      obtain ⟨k', vs⟩ := e
      by_cases hk : k' = k
      · subst hk
        simp [addVal, keysOf]
      · have h1 : addVal ((k', vs) :: rest) k v = (k', vs) :: addVal rest k v := by
          show (if k' = k then _ else _) = _
          rw [if_neg hk]
        rw [h1]
        show k' :: keysOf (addVal rest k v) = _
        rw [ih]
        rw [show keysOf ((k', vs) :: rest) = k' :: keysOf rest from rfl]
        by_cases hmem : k ∈ keysOf rest
        · rw [if_pos hmem,
            if_pos (show k ∈ k' :: keysOf rest from List.mem_cons.mpr (Or.inr hmem))]
        · have hnot : k ∉ k' :: keysOf rest := by
            intro hmm
            rcases List.mem_cons.mp hmm with he | hm
            · exact hk he.symm
            · exact hmem hm
          rw [if_neg hmem, if_neg hnot]
          rfl

theorem addVal_not_mem (k : GoStr) (v : GoStr) :
    ∀ m : Values, k ∉ keysOf m → addVal m k v = m ++ [(k, [v])] := by
  intro m
  induction m with
  | nil => intro _; rfl
  | cons e rest ih =>
      obtain ⟨k', vs⟩ := e
      intro h
      have hk : k' ≠ k := fun he => h (by simp [keysOf, he])
      show (if k' = k then _ else (k', vs) :: addVal rest k v) = _
      rw [if_neg hk, ih (fun hm => h (List.mem_cons.mpr (Or.inr hm)))]
      rfl

theorem addVal_append_last (k : GoStr) (v : GoStr) (vs : List GoStr) :
    ∀ acc : Values, k ∉ keysOf acc →
      addVal (acc ++ [(k, vs)]) k v = acc ++ [(k, vs ++ [v])] := by
  intro acc
  induction acc with
  | nil =>
      intro _
      show (if k = k then _ else _) = _
      rw [if_pos rfl]
      rfl
  | cons e rest ih =>
      obtain ⟨k', vs'⟩ := e
      intro h
      have hk : k' ≠ k := fun he => h (by simp [keysOf, he])
      show (if k' = k then _ else (k', vs') :: addVal (rest ++ [(k, vs)]) k v) = _
      rw [if_neg hk, ih (fun hm => h (List.mem_cons.mpr (Or.inr hm)))]
      rfl

theorem foldl_addVal_values (k : GoStr) :
    ∀ (vtail : List GoStr) (vs0 : List GoStr) (acc : Values), k ∉ keysOf acc →
      (vtail.map (fun v => (k, v))).foldl (fun m kv => addVal m kv.1 kv.2)
        (acc ++ [(k, vs0)]) = acc ++ [(k, vs0 ++ vtail)] := by
  intro vtail
  induction vtail with
  | nil => intro vs0 acc _; simp
  | cons v vt ih =>
      intro vs0 acc hk
      simp only [List.map_cons, List.foldl_cons]
      rw [addVal_append_last k v vs0 acc hk, ih (vs0 ++ [v]) acc hk]
      simp

theorem foldl_addVal_entry (k : GoStr) (vs : List GoStr) (hne : vs ≠ [])
    (acc : Values) (hk : k ∉ keysOf acc) :
    (vs.map (fun v => (k, v))).foldl (fun m kv => addVal m kv.1 kv.2) acc =
      acc ++ [(k, vs)] := by
  cases vs with
  | nil => exact absurd rfl hne
  | cons v0 vt =>
      simp only [List.map_cons, List.foldl_cons]
      rw [show addVal acc k v0 = acc ++ [(k, [v0])] from addVal_not_mem k v0 acc hk,
        foldl_addVal_values k vt [v0] acc hk]
      rfl

theorem keysOf_append (a b : Values) : keysOf (a ++ b) = keysOf a ++ keysOf b := by
  simp [keysOf]

theorem foldl_addVal_flatPairs :
    ∀ (entries : Values) (acc : Values),
      (keysOf entries).Nodup → (∀ e ∈ entries, e.2 ≠ []) →
      (∀ kk ∈ keysOf entries, kk ∉ keysOf acc) →
      (flatPairs entries).foldl (fun m kv => addVal m kv.1 kv.2) acc =
        acc ++ entries := by
  intro entries
  induction entries with
  | nil => intro acc _ _ _; simp [flatPairs]
  | cons e rest ih =>
      intro acc hnd hne hdisj
      obtain ⟨k, vs⟩ := e
      have hfp : flatPairs ((k, vs) :: rest) =
          vs.map (fun v => (k, v)) ++ flatPairs rest := by
        simp [flatPairs]
      rw [hfp, List.foldl_append]
      have hknotacc : k ∉ keysOf acc := hdisj k (by simp [keysOf])
      rw [foldl_addVal_entry k vs (hne (k, vs) (by simp)) acc hknotacc]
      have hndrest : (keysOf rest).Nodup := by
        have : keysOf ((k, vs) :: rest) = k :: keysOf rest := rfl
        rw [this] at hnd
        exact (List.nodup_cons.mp hnd).2
      have hknotrest : k ∉ keysOf rest := by
        have : keysOf ((k, vs) :: rest) = k :: keysOf rest := rfl
        rw [this] at hnd
        exact (List.nodup_cons.mp hnd).1
      rw [ih (acc ++ [(k, vs)]) hndrest (fun x hx => hne x (by simp [hx]))
        (by
          intro kk hkk
          rw [keysOf_append]
          intro hm
          rcases List.mem_append.mp hm with hm1 | hm2
          · exact hdisj kk (List.mem_cons.mpr (Or.inr hkk)) hm1
          · have : kk = k := by simpa [keysOf] using hm2
            subst this
            exact hknotrest hkk)]
      simp

theorem parseQueryLoop_encoded :
    ∀ (pairs : List (GoStr × GoStr)) (fuel : Nat) (m : Values),
      (joinAmp (pairs.map encPair)).length < fuel →
      (∀ kv ∈ pairs, (∀ b ∈ kv.1, b < 256) ∧ (∀ b ∈ kv.2, b < 256)) →
      parseQueryLoop fuel (joinAmp (pairs.map encPair)) m =
        pairs.foldl (fun m kv => addVal m kv.1 kv.2) m := by
  intro pairs
  induction pairs with
  | nil => intro fuel m _ _; exact parseQueryLoop_nil fuel m
  | cons p ps ih =>
      intro fuel m hlen hb
      obtain ⟨hb1, hb2⟩ := hb p (by simp)
      cases fuel with
      | zero => omega
      | succ f =>
          cases ps with
          | nil =>
              have hq : joinAmp (((p :: []) : List (GoStr × GoStr)).map encPair) =
                  encPair p := rfl
              rw [hq] at hlen ⊢
              rw [parseQueryLoop_succ, if_neg (encPair_ne_nil p)]
              rw [cutByte_not_mem 38 (encPair p) (encPair_not_mem p hb1 hb2).1]
              rw [if_neg (show ¬ (59 ∈ ((encPair p, ([] : GoStr), false) :
                GoStr × GoStr × Bool).1) from (encPair_not_mem p hb1 hb2).2)]
              rw [if_neg (show ¬ (((encPair p, ([] : GoStr), false) :
                GoStr × GoStr × Bool).1 = []) from encPair_ne_nil p)]
              have hcut61 : cutByte ((encPair p, ([] : GoStr), false) :
                  GoStr × GoStr × Bool).1 61 =
                  (queryEscape p.1, queryEscape p.2, true) := cutByte_encPair p hb1
              rw [hcut61]
              rw [show queryUnescape ((queryEscape p.1, queryEscape p.2, true) :
                GoStr × GoStr × Bool).1 = some p.1 from queryUnescape_queryEscape p.1 hb1]
              rw [show queryUnescape ((queryEscape p.1, queryEscape p.2, true) :
                GoStr × GoStr × Bool).2.1 = some p.2 from queryUnescape_queryEscape p.2 hb2]
              show parseQueryLoop f [] (addVal m p.1 p.2) = _
              rw [parseQueryLoop_nil]
              rfl
          | cons p2 ps' =>
              have hq : joinAmp (((p :: p2 :: ps') : List (GoStr × GoStr)).map encPair) =
                  encPair p ++ 38 :: joinAmp ((p2 :: ps').map encPair) := rfl
              rw [hq] at hlen ⊢
              rw [parseQueryLoop_succ,
                if_neg (show ¬ (encPair p ++ 38 :: joinAmp ((p2 :: ps').map encPair) = [])
                  from by simp)]
              rw [cutByte_append_sep 38 _ _ (encPair_not_mem p hb1 hb2).1]
              rw [if_neg (show ¬ (59 ∈ ((encPair p, joinAmp ((p2 :: ps').map encPair), true) :
                GoStr × GoStr × Bool).1) from (encPair_not_mem p hb1 hb2).2)]
              rw [if_neg (show ¬ (((encPair p, joinAmp ((p2 :: ps').map encPair), true) :
                GoStr × GoStr × Bool).1 = []) from encPair_ne_nil p)]
              rw [show cutByte ((encPair p, joinAmp ((p2 :: ps').map encPair), true) :
                GoStr × GoStr × Bool).1 61 = (queryEscape p.1, queryEscape p.2, true)
                from cutByte_encPair p hb1]
              rw [show queryUnescape ((queryEscape p.1, queryEscape p.2, true) :
                GoStr × GoStr × Bool).1 = some p.1 from queryUnescape_queryEscape p.1 hb1]
              rw [show queryUnescape ((queryEscape p.1, queryEscape p.2, true) :
                GoStr × GoStr × Bool).2.1 = some p.2 from queryUnescape_queryEscape p.2 hb2]
              show parseQueryLoop f (joinAmp ((p2 :: ps').map encPair)) (addVal m p.1 p.2) = _
              rw [ih f (addVal m p.1 p.2)
                (by simp only [List.length_append, List.length_cons] at hlen; omega)
                (fun kv hkv => hb kv (by simp [hkv]))]
              rfl

theorem addVal_nodup (k v : GoStr) (m : Values) (h : (keysOf m).Nodup) :
    (keysOf (addVal m k v)).Nodup := by
  rw [keysOf_addVal]
  by_cases hm : k ∈ keysOf m
  · rw [if_pos hm]; exact h
  · rw [if_neg hm]
    rw [List.nodup_append]
    exact ⟨h, List.nodup_singleton k, by
      intro a ha hak
      have : a = k := by simpa using hak
      subst this
      exact hm ha⟩

theorem addVal_vals_ne (k v : GoStr) :
    ∀ m : Values, (∀ e ∈ m, e.2 ≠ []) → ∀ e ∈ addVal m k v, e.2 ≠ [] := by
  intro m
  induction m with
  | nil =>
      intro _ e he
      have : e = (k, [v]) := by simpa [addVal] using he
      subst this
      simp
  | cons x rest ih =>
      obtain ⟨k', vs⟩ := x
      intro h e he
      by_cases hk : k' = k
      · rw [show addVal ((k', vs) :: rest) k v = (k', vs ++ [v]) :: rest from by
          show (if k' = k then _ else _) = _
          rw [if_pos hk]] at he
        rcases List.mem_cons.mp he with rfl | he'
        · simp
        · exact h e (by simp [he'])
      · rw [show addVal ((k', vs) :: rest) k v = (k', vs) :: addVal rest k v from by
          show (if k' = k then _ else _) = _
          rw [if_neg hk]] at he
        rcases List.mem_cons.mp he with rfl | he'
        · exact h (k', vs) (by simp)
        · exact ih (fun x hx => h x (by simp [hx])) e he'

theorem addVal_bytes (k v : GoStr) (hk : ∀ b ∈ k, b < 256)
    (hv : ∀ b ∈ v, b < 256) :
    ∀ m : Values,
      (∀ e ∈ m, (∀ b ∈ e.1, b < 256) ∧ (∀ w ∈ e.2, ∀ b ∈ w, b < 256)) →
      ∀ e ∈ addVal m k v, (∀ b ∈ e.1, b < 256) ∧ (∀ w ∈ e.2, ∀ b ∈ w, b < 256) := by
  intro m
  induction m with
  | nil =>
      intro _ e he
      have : e = (k, [v]) := by simpa [addVal] using he
      subst this
      refine ⟨hk, ?_⟩
      intro w hw
      have : w = v := by simpa using hw
      subst this
      exact hv
  | cons x rest ih =>
      obtain ⟨k', vs⟩ := x
      intro h e he
      by_cases hkk : k' = k
      · rw [show addVal ((k', vs) :: rest) k v = (k', vs ++ [v]) :: rest from by
          show (if k' = k then _ else _) = _
          rw [if_pos hkk]] at he
        rcases List.mem_cons.mp he with rfl | he'
        · have hbase := h (k', vs) (by simp)
          refine ⟨hbase.1, ?_⟩
          intro w hw
          rcases List.mem_append.mp hw with hw1 | hw2
          · exact hbase.2 w hw1
          · have : w = v := by simpa using hw2
            subst this
            exact hv
        · exact h e (by simp [he'])
      · rw [show addVal ((k', vs) :: rest) k v = (k', vs) :: addVal rest k v from by
          show (if k' = k then _ else _) = _
          rw [if_neg hkk]] at he
        rcases List.mem_cons.mp he with rfl | he'
        · exact h (k', vs) (by simp)
        · exact ih (fun x hx => h x (by simp [hx])) e he'

theorem parseQueryLoop_wf (fuel : Nat) :
    ∀ (q : GoStr) (m : Values), (∀ b ∈ q, b < 256) →
      (keysOf m).Nodup → (∀ e ∈ m, e.2 ≠ []) →
      (∀ e ∈ m, (∀ b ∈ e.1, b < 256) ∧ (∀ v ∈ e.2, ∀ b ∈ v, b < 256)) →
      (keysOf (parseQueryLoop fuel q m)).Nodup ∧
      (∀ e ∈ parseQueryLoop fuel q m, e.2 ≠ []) ∧
      (∀ e ∈ parseQueryLoop fuel q m,
        (∀ b ∈ e.1, b < 256) ∧ (∀ v ∈ e.2, ∀ b ∈ v, b < 256)) := by
  induction fuel with
  | zero => intro q m _ h1 h2 h3; exact ⟨h1, h2, h3⟩
  | succ f ih =>
      intro q m hq h1 h2 h3
      rw [parseQueryLoop_succ]
      by_cases hqe : q = []
      · rw [if_pos hqe]; exact ⟨h1, h2, h3⟩
      · rw [if_neg hqe]
        have hrest : ∀ b ∈ (cutByte q 38).2.1, b < 256 :=
          fun b hb => hq b ((cutByte_parts_subset 38 q).2 b hb)
        have hkey : ∀ b ∈ (cutByte q 38).1, b < 256 :=
          fun b hb => hq b ((cutByte_parts_subset 38 q).1 b hb)
        by_cases h59 : 59 ∈ (cutByte q 38).1
        · rw [if_pos h59]; exact ih _ m hrest h1 h2 h3
        · rw [if_neg h59]
          by_cases hke : (cutByte q 38).1 = []
          · rw [if_pos hke]; exact ih _ m hrest h1 h2 h3
          · rw [if_neg hke]
            cases hk : queryUnescape (cutByte (cutByte q 38).1 61).1 with
            | none => exact ih _ m hrest h1 h2 h3
            | some k =>
                cases hv : queryUnescape (cutByte (cutByte q 38).1 61).2.1 with
                | none => exact ih _ m hrest h1 h2 h3
                | some v =>
                    have hkb : ∀ b ∈ k, b < 256 := by
                      apply queryUnescapeAux_bytes _ _ _ _ hk
                      intro b hb
                      exact hkey b
                        ((cutByte_parts_subset 61 (cutByte q 38).1).1 b hb)
                    have hvb : ∀ b ∈ v, b < 256 := by
                      apply queryUnescapeAux_bytes _ _ _ _ hv
                      intro b hb
                      exact hkey b
                        ((cutByte_parts_subset 61 (cutByte q 38).1).2 b hb)
                    exact ih _ (addVal m k v) hrest (addVal_nodup k v m h1)
                      (addVal_vals_ne k v m h2) (addVal_bytes k v hkb hvb m h3)

theorem delKey_mem (m : Values) (k : GoStr) :
    ∀ e ∈ delKey m k, e ∈ m := fun e he => List.mem_of_mem_filter he

theorem delKey_keys_subset (m : Values) (k : GoStr) :
    ∀ kk ∈ keysOf (delKey m k), kk ∈ keysOf m := by
  intro kk hkk
  obtain ⟨e, he, rfl⟩ := List.mem_map.mp hkk
  exact List.mem_map.mpr ⟨e, delKey_mem m k e he, rfl⟩

theorem not_mem_keys_delKey (m : Values) (k : GoStr) :
    k ∉ keysOf (delKey m k) := by
  intro hk
  obtain ⟨e, he, heq⟩ := List.mem_map.mp hk
  have := List.of_mem_filter he
  rw [heq] at this
  simp at this

theorem delKey_nodup (m : Values) (k : GoStr) (h : (keysOf m).Nodup) :
    (keysOf (delKey m k)).Nodup := by
  have hsub : List.Sublist (delKey m k) m := List.filter_sublist m
  exact (hsub.map Prod.fst).nodup h

theorem delKey_eq_self (m : Values) (k : GoStr) (h : k ∉ keysOf m) :
    delKey m k = m := by
  apply List.filter_eq_self.mpr
  intro e he
  simp only [decide_eq_true_eq]
  intro heq
  exact h (List.mem_map.mpr ⟨e, he, heq⟩)

theorem foldl_delKey_mem (ks : List GoStr) :
    ∀ (m : Values) (e : GoStr × List GoStr), e ∈ ks.foldl delKey m → e ∈ m := by
  induction ks with
  | nil => intro m e he; exact he
  | cons k0 ks' ih =>
      intro m e he
      exact delKey_mem m k0 e (ih (delKey m k0) e he)

theorem foldl_delKey_keys_subset (ks : List GoStr) :
    ∀ (m : Values) (kk : GoStr), kk ∈ keysOf (ks.foldl delKey m) → kk ∈ keysOf m := by
  induction ks with
  | nil => intro m kk h; exact h
  | cons k0 ks' ih =>
      intro m kk h
      exact delKey_keys_subset m k0 kk (ih (delKey m k0) kk h)

theorem foldl_delKey_not_mem (ks : List GoStr) :
    ∀ (m : Values) (t : GoStr), t ∈ ks → t ∉ keysOf (ks.foldl delKey m) := by
  induction ks with
  | nil => intro m t h; simp at h
  | cons k0 ks' ih =>
      intro m t h
      rcases List.mem_cons.mp h with rfl | h'
      · intro hmem
        exact not_mem_keys_delKey m t
          (foldl_delKey_keys_subset ks' (delKey m t) t hmem)
      · exact ih (delKey m k0) t h'

theorem foldl_delKey_nodup (ks : List GoStr) :
    ∀ m : Values, (keysOf m).Nodup → (keysOf (ks.foldl delKey m)).Nodup := by
  induction ks with
  | nil => intro m h; exact h
  | cons k0 ks' ih => intro m h; exact ih (delKey m k0) (delKey_nodup m k0 h)

theorem foldl_delKey_eq_self (ks : List GoStr) :
    ∀ m : Values, (∀ t ∈ ks, t ∉ keysOf m) → ks.foldl delKey m = m := by
  induction ks with
  | nil => intro m _; rfl
  | cons k0 ks' ih =>
      intro m h
      show ks'.foldl delKey (delKey m k0) = m
      rw [delKey_eq_self m k0 (h k0 (by simp))]
      exact ih m (fun t ht => h t (by simp [ht]))

theorem sortVals_perm (m : Values) : List.Perm (sortVals m) m := List.perm_insertionSort keyLe m

theorem sortVals_sorted (m : Values) : List.Sorted keyLe (sortVals m) :=
  List.sorted_insertionSort keyLe m

theorem sortVals_idem (m : Values) : sortVals (sortVals m) = sortVals m :=
  List.Sorted.insertionSort_eq (sortVals_sorted m)

theorem keysOf_sortVals_perm (m : Values) : List.Perm (keysOf (sortVals m)) (keysOf m) :=
  (sortVals_perm m).map Prod.fst

theorem parseQueryGo_encodeVals (m : Values)
    (hnd : (keysOf m).Nodup) (hne : ∀ e ∈ m, e.2 ≠ [])
    (hbytes : ∀ e ∈ m, (∀ b ∈ e.1, b < 256) ∧ (∀ v ∈ e.2, ∀ b ∈ v, b < 256)) :
    parseQueryGo (encodeVals m) = sortVals m := by
  have hpairs : ∀ kv ∈ flatPairs (sortVals m),
      (∀ b ∈ kv.1, b < 256) ∧ (∀ b ∈ kv.2, b < 256) := by
    intro kv hkv
    obtain ⟨e, he, h1, h2⟩ := flatPairs_mem (sortVals m) kv hkv
    have hem : e ∈ m := (sortVals_perm m).mem_iff.mp he
    have hb := hbytes e hem
    exact ⟨by rw [h1]; exact hb.1, hb.2 kv.2 h2⟩
  show parseQueryLoop ((encodeVals m).length + 1) (encodeVals m) [] = _
  unfold encodeVals
  rw [parseQueryLoop_encoded (flatPairs (sortVals m)) _ []
    (by omega) hpairs]
  have hndS : (keysOf (sortVals m)).Nodup :=
    ((keysOf_sortVals_perm m).nodup_iff).mpr hnd
  have hneS : ∀ e ∈ sortVals m, e.2 ≠ [] :=
    fun e he => hne e ((sortVals_perm m).mem_iff.mp he)
  have := foldl_addVal_flatPairs (sortVals m) [] hndS hneS
    (by intro kk _ hmem; simp [keysOf] at hmem)
  rw [this]
  rfl

theorem encodeVals_bytes (m : Values)
    (hbytes : ∀ e ∈ m, (∀ b ∈ e.1, b < 256) ∧ (∀ v ∈ e.2, ∀ b ∈ v, b < 256)) :
    ∀ b ∈ encodeVals m, b < 256 := by
  intro b hb
  unfold encodeVals at hb
  rcases joinAmp_mem b _ hb with ⟨p, hp, hbp⟩ | rfl
  · obtain ⟨kv, hkv, rfl⟩ := List.mem_map.mp hp
    obtain ⟨e, he, h1, h2⟩ := flatPairs_mem (sortVals m) kv hkv
    have hem : e ∈ m := (sortVals_perm m).mem_iff.mp he
    have hbm := hbytes e hem
    exact encPair_bytes kv (by rw [h1]; exact hbm.1) (hbm.2 kv.2 h2) b hbp
  · omega

/-- The query-rewriting pipeline of `cleanURL`: parse `RawQuery`, delete the
tracking parameters, re-encode. -/
def cleanQuery (rq : GoStr) : GoStr := encodeVals (delTracked (parseQueryGo rq))

theorem cleanQuery_idem (rq : GoStr) (h : ∀ b ∈ rq, b < 256) :
    cleanQuery (cleanQuery rq) = cleanQuery rq := by
  have hwf := parseQueryLoop_wf (rq.length + 1) rq [] h
    (by simp [keysOf]) (by simp) (by simp)
  have hnd : (keysOf (parseQueryGo rq)).Nodup := hwf.1
  have hne : ∀ e ∈ parseQueryGo rq, e.2 ≠ [] := hwf.2.1
  have hby : ∀ e ∈ parseQueryGo rq,
      (∀ b ∈ e.1, b < 256) ∧ (∀ v ∈ e.2, ∀ b ∈ v, b < 256) := hwf.2.2
  set m' : Values := delTracked (parseQueryGo rq) with hm'
  have hnd' : (keysOf m').Nodup := foldl_delKey_nodup _ _ hnd
  have hne' : ∀ e ∈ m', e.2 ≠ [] :=
    fun e he => hne e (foldl_delKey_mem _ _ e he)
  have hby' : ∀ e ∈ m', (∀ b ∈ e.1, b < 256) ∧ (∀ v ∈ e.2, ∀ b ∈ v, b < 256) :=
    fun e he => hby e (foldl_delKey_mem _ _ e he)
  have hnotrk : ∀ t ∈ trackedParams, t ∉ keysOf m' :=
    fun t ht => foldl_delKey_not_mem trackedParams (parseQueryGo rq) t ht
  show cleanQuery (encodeVals m') = encodeVals m'
  unfold cleanQuery
  rw [parseQueryGo_encodeVals m' hnd' hne' hby']
  have hnotrkS : ∀ t ∈ trackedParams, t ∉ keysOf (sortVals m') := by
    intro t ht hmem
    exact hnotrk t ht ((keysOf_sortVals_perm m').mem_iff.mp hmem)
  show encodeVals (delTracked (sortVals m')) = _
  unfold delTracked
  rw [foldl_delKey_eq_self trackedParams (sortVals m') hnotrkS]
  show joinAmp ((flatPairs (sortVals (sortVals m'))).map encPair) = _
  rw [sortVals_idem]
  rfl

/-- A parsed URL, as far as `cleanURL` inspects it: `RawQuery` plus everything
else (scheme, host, path, fragment...) held opaque in `base`.  `url.Parse` and
`URL.String` are the Go standard library, abstracted below. -/
structure GoURL where
  base : GoStr
  rawQuery : GoStr
deriving DecidableEq

/-- `cleanURL` (the V2 main file): parse; on failure return the input
unchanged; otherwise delete the tracking parameters from the query and
re-serialize. -/
def cleanURL (parse : GoStr → Option GoURL) (stringify : GoURL → GoStr)
    (raw : GoStr) : GoStr :=
  match parse raw with
  | none => raw
  | some u => stringify ⟨u.base, cleanQuery u.rawQuery⟩

/-- C8.  URL canonicalization is idempotent.  When parsing fails the input is
returned unchanged (so a second pass is trivially identical); when it
succeeds, re-parsing the serialized output (round-trip hypothesis `hrt` on the
standard library's parser, for byte-valid queries) and re-cleaning the already
clean, canonically re-encoded query reproduces it exactly.  `hbytes` states
that a parsed `RawQuery` consists of bytes (Go strings are byte strings). -/
theorem cleanURL_idempotent (parse : GoStr → Option GoURL)
    (stringify : GoURL → GoStr)
    (hrt : ∀ raw u, parse raw = some u → ∀ q, (∀ b ∈ q, b < 256) →
      parse (stringify ⟨u.base, q⟩) = some ⟨u.base, q⟩)
    (hbytes : ∀ raw u, parse raw = some u → ∀ b ∈ u.rawQuery, b < 256)
    (raw : GoStr) :
    cleanURL parse stringify (cleanURL parse stringify raw) =
      cleanURL parse stringify raw := by
  cases hp : parse raw with
  | none => simp [cleanURL, hp]
  | some u =>
      have hq : ∀ b ∈ cleanQuery u.rawQuery, b < 256 := by
        apply encodeVals_bytes
        intro e he
        have hwf := parseQueryLoop_wf (u.rawQuery.length + 1) u.rawQuery []
          (hbytes raw u hp) (by simp [keysOf]) (by simp) (by simp)
        exact hwf.2.2 e (foldl_delKey_mem _ _ e he)
      have h1 : cleanURL parse stringify raw =
          stringify ⟨u.base, cleanQuery u.rawQuery⟩ := by
        unfold cleanURL
        rw [hp]
      rw [h1]
      have h2 : parse (stringify ⟨u.base, cleanQuery u.rawQuery⟩) =
          some ⟨u.base, cleanQuery u.rawQuery⟩ := hrt raw u hp _ hq
      unfold cleanURL
      rw [h2]
      show stringify ⟨u.base, cleanQuery (cleanQuery u.rawQuery)⟩ = _
      rw [cleanQuery_idem u.rawQuery (hbytes raw u hp)]

theorem cutByte_before_not_mem (sep : Nat) :
    ∀ q : GoStr, sep ∉ (cutByte q sep).1 := by
  intro q
  induction q with
  | nil => simp [cutByte]
  | cons c rest ih =>
      by_cases hc : c = sep
      · have hcut : cutByte (c :: rest) sep = ([], rest, true) := by
          show (if c = sep then (([] : GoStr), rest, true) else _) = _
          rw [if_pos hc]
        rw [hcut]
        simp
      · have hcut : cutByte (c :: rest) sep =
            (c :: (cutByte rest sep).1, (cutByte rest sep).2.1,
             (cutByte rest sep).2.2) := by
          show (if c = sep then ([], rest, true) else _) = _
          rw [if_neg hc]
        rw [hcut]
        intro hmem
        have hmem' : sep ∈ c :: (cutByte rest sep).1 := hmem
        rcases List.mem_cons.mp hmem' with he | hm
        · exact hc he.symm
        · exact ih hm

/-- A concrete instantiation of the abstract parser pair for the witness:
split at the first '?' byte (the prefix never contains one), accepting only
byte-valid inputs. -/
def toyParse (s : GoStr) : Option GoURL :=
  if ∀ b ∈ s, b < 256 then some ⟨(cutByte s 63).1, (cutByte s 63).2.1⟩ else none

/-- See `toyParse`. -/
def toyStringify (u : GoURL) : GoStr := u.base ++ 63 :: u.rawQuery

theorem toyParse_roundtrip : ∀ raw u, toyParse raw = some u →
    ∀ q, (∀ b ∈ q, b < 256) →
      toyParse (toyStringify ⟨u.base, q⟩) = some ⟨u.base, q⟩ := by
  intro raw u hp q hq
  unfold toyParse at hp
  by_cases hb : ∀ b ∈ raw, b < 256
  · rw [if_pos hb] at hp
    have hu : u = ⟨(cutByte raw 63).1, (cutByte raw 63).2.1⟩ := by
      have := hp
      simp at this
      exact this.symm
    have hbase : ∀ b ∈ u.base, b < 256 := by
      rw [hu]
      intro b hbm
      exact hb b ((cutByte_parts_subset 63 raw).1 b hbm)
    have hno63 : (63 : Nat) ∉ u.base := by
      rw [hu]
      exact cutByte_before_not_mem 63 raw
    unfold toyParse toyStringify
    rw [if_pos (by
      intro b hbm
      rcases List.mem_append.mp hbm with h1 | h2
      · exact hbase b h1
      · rcases List.mem_cons.mp h2 with rfl | h3
        · omega
        · exact hq b h3)]
    rw [cutByte_append_sep 63 u.base q hno63]
  · rw [if_neg hb] at hp
    exact absurd hp (by simp)

theorem toyParse_bytes : ∀ raw u, toyParse raw = some u →
    ∀ b ∈ u.rawQuery, b < 256 := by
  intro raw u hp b hbm
  unfold toyParse at hp
  by_cases hb : ∀ b ∈ raw, b < 256
  · rw [if_pos hb] at hp
    have hu : u = ⟨(cutByte raw 63).1, (cutByte raw 63).2.1⟩ := by
      have := hp
      simp at this
      exact this.symm
    rw [hu] at hbm
    exact hb b ((cutByte_parts_subset 63 raw).2 b hbm)
  · rw [if_neg hb] at hp
    exact absurd hp (by simp)

/-- Witness for `cleanURL_idempotent`: the concrete parser pair `toyParse` /
`toyStringify` satisfies both hypotheses, and cleaning
`"http://x?utm_source=1&keep=2"` twice equals cleaning it once. -/
theorem cleanURL_idempotent_witness :
    cleanURL toyParse toyStringify
        (cleanURL toyParse toyStringify
          (asciiBytes "http://x?utm_source=1&keep=2")) =
      cleanURL toyParse toyStringify (asciiBytes "http://x?utm_source=1&keep=2") :=
  cleanURL_idempotent toyParse toyStringify toyParse_roundtrip toyParse_bytes
    (asciiBytes "http://x?utm_source=1&keep=2")

/-- Sanity evaluation: on that input `cleanURL` drops `utm_source` and keeps
`keep=2`. -/
theorem cleanURL_strips_tracking :
    cleanURL toyParse toyStringify (asciiBytes "http://x?utm_source=1&keep=2") =
      asciiBytes "http://x?keep=2" := by decide

end BrowserPipes
